import Mathlib

set_option maxRecDepth 100000

/-!
# Host identifier generation (`libclamav/hostid.c`)

A shallow embedding of `get_device_entry`, `get_devices` and
`internal_get_host_id`, and the properties proved about them.

Conventions of the embedding.

* A pointer-returning C function returns a `Run`: a non-NULL value, a NULL
  return, or a fault (a null pointer handed to `strcmp`/`strcpy`, or a read
  past the end of the array).
* A C string is a `String`; `strcmp(a, b) == 0` is equality.
* A `char` buffer is a `List Nat` of byte values; its text is what precedes the
  first zero byte.
* `struct device` comes from `hostid.h`: `char *name` and the array `mac`.  The
  size of that array, `sizeof(mac)`, is the parameter `S` of every definition
  that depends on it.
* The outcomes of `calloc`, `realloc`, `strdup`, `getifaddrs`, `socket` and
  `ioctl` are given by an environment `Env`.
* The hash (`cli_md5_init`/`update`/`final`) is a function `H` from the bytes
  fed to it to the digest bytes.
-/

namespace HostId

/-! ## Data model -/

/-- How a pointer-returning C function ends. -/
inductive Run (α : Type) where
  /-- Returns a non-NULL pointer to the value. -/
  | val (a : α)
  /-- Executes `return NULL`. -/
  | ret_null
  /-- Undefined behaviour: a null `char *` is given to `strcmp` or `strcpy`, or
  an array is read past its last element. -/
  | fault
  deriving DecidableEq, Repr

/-- The C `struct device { char *name; char mac[S]; }`. `name = none` is a null
pointer. -/
structure Device where
  name : Option String
  mac : List Nat
  deriving DecidableEq, Repr

/-- A buffer of `n` zero bytes (the effect of `memset(p, 0x00, n)` or `calloc`). -/
def zeros (n : Nat) : List Nat := List.replicate n 0

/-- The value of `strdup(name)`: a copy of the name, or NULL when the allocation
fails. -/
def strdup (ok : Bool) (name : String) : Option String :=
  if ok then some name else none

/-! ## `get_device_entry` -/

/-- The scan of lines 48-53: the index of the first entry whose name equals
`name` (`strcmp(device->name, name) == 0`), `none` when the loop ends without a
match. `strcmp` on a null `device->name` is a fault. -/
def find_entry (name : String) : List Device → Run (Option Nat)
  | [] => .val none
  | d :: ds =>
    match d.name with
    | none => .fault
    | some n =>
      if n = name then .val (some 0)
      else
        match find_entry name ds with
        | .val (some i) => .val (some (i + 1))
        | .val none => .val none
        | .ret_null => .ret_null
        | .fault => .fault

/-- Lines 78-79 applied to the entry at index `i`:
`if (!(device->name)) device->name = strdup(name);`. -/
def set_name_if_null (dupOk : Bool) (name : String) : Nat → List Device → List Device
  | _, [] => []
  | 0, d :: ds =>
    (match d.name with
     | none => { d with name := strdup dupOk name }
     | some _ => d) :: ds
  | i + 1, d :: ds => d :: set_name_if_null dupOk name i ds

/-- The function `get_device_entry(devices, &ndevices, name)`.

`devices = none` is the NULL registry; `some ds` is an array whose `*ndevices`
is `ds.length`. `allocOk` is the outcome of the one `calloc`/`realloc` the call
may make, `dupOk` that of the one `strdup`. The value returned is the new array,
whose length is the new `*ndevices`.

The first-call branch is `calloc(1, sizeof(device))`; the embedding takes the
entry it yields to be zero-filled (NULL name, zero `mac`), as `memset` makes the
entries added by the `realloc` branch. (The source passes the size of the
pointer `device`, not of `struct device`; which bytes of the first entry lie
inside the block is a matter of memory layout that the embedding does not
represent.) -/
def get_device_entry (S : Nat) (allocOk dupOk : Bool)
    (devices : Option (List Device)) (name : String) : Run (List Device) :=
  match devices with
  | some ds =>
    match find_entry name ds with
    | .fault => .fault
    | .ret_null => .ret_null
    | .val (some i) => .val (set_name_if_null dupOk name i ds)
    | .val none =>
      if allocOk then
        .val (set_name_if_null dupOk name ds.length (ds ++ [⟨none, zeros S⟩]))
      else .ret_null
  | none =>
    if allocOk then .val (set_name_if_null dupOk name 0 [⟨none, zeros S⟩])
    else .ret_null

/-- One step of a caller that builds a registry: a call
`devices = get_device_entry(devices, &ndevices, name)` with the outcomes of its
allocations, or a store into the `mac` array of the entry at index `i` (what
`get_devices` does between the calls). -/
inductive Op where
  | upsert (name : String) (allocOk dupOk : Bool)
  | set_mac (i : Nat) (mac : List Nat)
  deriving DecidableEq, Repr

/-- Replacing the `mac` array of the entry at index `i`. -/
def set_mac (mac : List Nat) : Nat → List Device → List Device
  | _, [] => []
  | 0, d :: ds => { d with mac := mac } :: ds
  | i + 1, d :: ds => d :: set_mac mac i ds

/-- Running a sequence of steps from the registry pointer `devices`. The caller
stops at the first NULL return or fault. -/
def run_ops (S : Nat) : Option (List Device) → List Op → Run (Option (List Device))
  | devices, [] => .val devices
  | devices, .upsert n a b :: ops =>
    match get_device_entry S a b devices n with
    | .val ds => run_ops S (some ds) ops
    | .ret_null => .ret_null
    | .fault => .fault
  | devices, .set_mac i m :: ops => run_ops S (devices.map (set_mac m i)) ops

/-- The distinct names of a sequence in first-seen order, following the spec's
words: each name is kept at its first occurrence and dropped afterwards. -/
def first_seen : List String → List String
  | [] => []
  | n :: ns => n :: (first_seen ns).filter (fun m => m ≠ n)


/-! ## Writing text into a fixed-size buffer -/

/-- The C `strlen`: the number of bytes before the first zero byte. On a buffer
holding no zero byte it gives the buffer's length. -/
def strlen (buf : List Nat) : Nat := (buf.takeWhile (fun c => c ≠ 0)).length

/-- The text held in a buffer: the bytes before the first zero byte. -/
def text (buf : List Nat) : List Nat := buf.takeWhile (fun c => c ≠ 0)

/-- The `size_t` value of an integer expression (64-bit `size_t`): a negative
difference wraps around. -/
def to_size_t (z : Int) : Nat := (z % (2 : Int) ^ 64).toNat

/-- Storing the bytes `data` at offset `off` of `buf`. The buffer keeps its
length: bytes that would land past its end are not stored. -/
def write_at (buf : List Nat) (off : Nat) (data : List Nat) : List Nat :=
  buf.take off ++ data.take (buf.length - off) ++ buf.drop (off + data.length)

/-- An ASCII lowercase hexadecimal digit of a value below 16. -/
def hex_digit (n : Nat) : Nat := if n < 10 then 48 + n else 87 + n

/-- The output of the conversion `%02x` on an `unsigned char` argument. -/
def fmt_02x (b : Nat) : List Nat := [hex_digit (b % 256 / 16), hex_digit (b % 256 % 16)]

/-- The output of the format `"%02x:"` on an `unsigned char` argument. -/
def fmt_02x_colon (b : Nat) : List Nat := fmt_02x b ++ [58]

/-- The call `snprintf(buf + off, n, ...)` whose formatted output is `s`: with
`n = 0` nothing is stored, otherwise the first `n - 1` bytes of `s` and a
terminating zero. -/
def snprintf_at (buf : List Nat) (off n : Nat) (s : List Nat) : List Nat :=
  if n = 0 then buf else write_at buf off (s.take (n - 1) ++ [0])

/-- The call `sprintf(buf + off, ...)` whose formatted output is `s`. -/
def sprintf_at (buf : List Nat) (off : Nat) (s : List Nat) : List Nat :=
  write_at buf off (s ++ [0])

/-- The size argument `sizeof(device->mac) - strlen(device->mac) - 1` as an
integer, before conversion to `size_t`. -/
def mac_room (S : Nat) (buf : List Nat) : Int := (S : Int) - (strlen buf : Int) - 1

/-- One pass of the loop body of lines 144 and 177:
`snprintf(mac + strlen(mac), sizeof(mac) - strlen(mac) - 1, "%02x:", b)`. -/
def mac_step (S : Nat) (buf : List Nat) (b : Nat) : List Nat :=
  snprintf_at buf (strlen buf) (to_size_t (mac_room S buf)) (fmt_02x_colon b)

/-- The loop `for (i = 0; i < 6; i++)` of lines 143-144 and 176-177, reading the
raw address bytes `mac[0..5]` (as `uint8_t`) from `raw`. -/
def append_mac (S : Nat) (buf : List Nat) (raw : List Nat) : List Nat :=
  (List.range 6).foldl (fun m i => mac_step S m (raw.getD i 0)) buf

/-- The six colon-terminated two-digit groups of a raw address: the full
18-character text `hex(b0) ':' ... hex(b5) ':'`. -/
def full_mac_text (raw : List Nat) : List Nat :=
  (List.range 6).flatMap (fun i => fmt_02x_colon (raw.getD i 0))

/-- The byte values of an ASCII string literal. -/
def ascii (s : String) : List Nat := s.toList.map Char.toNat

/-! ## `get_devices` -/

/-- The build configuration the preprocessor conditionals of the file test. -/
structure Platform where
  /-- `HAVE_GETIFADDRS`: the enumerating `get_devices` is compiled, not the stub. -/
  have_getifaddrs : Bool
  /-- The link-layer address family the walk keeps: the value of `AF_PACKET`
  when it is defined, else of `AF_LINK` when that is defined, else `none` (the
  walk stops at the first record that has an address). -/
  link_family : Option Nat
  /-- `SIOCGIFHWADDR` is defined: addresses come from the `ioctl` loop after the
  walk, not from the records during the walk. -/
  siocgifhwaddr : Bool
  deriving DecidableEq, Repr

/-- The part of a `struct sockaddr` the code reads: its family, and the bytes
found at the link-level address (`LLADDR(sdl)`, or `sdl_data + sdl_nlen`). -/
structure SockAddr where
  sa_family : Nat
  lladdr : List Nat
  deriving DecidableEq, Repr

/-- One record of the list `getifaddrs` yields. `ifa_addr = none` is a null
`ifa_addr`. -/
structure IfAddr where
  ifa_name : String
  ifa_addr : Option SockAddr
  deriving DecidableEq, Repr

/-- What the operating system and the allocator answer during one call of
`get_devices` and `internal_get_host_id`. -/
structure Env where
  /-- The list `getifaddrs` stores, `none` when the call fails. -/
  getifaddrs : Option (List IfAddr)
  /-- Outcome of the `calloc`/`realloc` made by `get_device_entry` for the
  record at the given position of the list. -/
  grow : Nat → Bool
  /-- Outcome of the `strdup` made by `get_device_entry` for the record at the
  given position of the list. -/
  dup : Nat → Bool
  /-- Outcome of `socket` for the device at the given index of the registry. -/
  socket : Nat → Bool
  /-- Answer of `ioctl(sock, SIOCGIFHWADDR, &ifr)` for the device at the given
  index: the bytes of `ifr_hwaddr.sa_data`, `none` when the request fails. -/
  ioctl : Nat → Option (List Nat)
  /-- Outcome of the `realloc` of line 183 that makes room for the sentinel. -/
  final_grow : Bool
  /-- Outcome of `calloc(1, 33)` in `internal_get_host_id`. -/
  out_alloc : Bool

/-- The loop of lines 134-148 (compiled when `SIOCGIFHWADDR` is not defined):
the first device whose name equals the record's name gets the record's six
address bytes appended to its `mac`. -/
def fill_from_record (S : Nat) (name : String) (raw : List Nat) : List Device → Run (List Device)
  | [] => .val []
  | d :: ds =>
    match d.name with
    | none => .fault
    | some n =>
      if n = name then .val ({ d with mac := append_mac S d.mac raw } :: ds)
      else
        match fill_from_record S name raw ds with
        | .val ds1 => .val (d :: ds1)
        | .ret_null => .ret_null
        | .fault => .fault

/-- The loop of lines 103-150 over the records from position `i` on, with the
registry pointer `devices`. `.val` is the registry pointer when the loop ends;
`.ret_null` is the `return NULL` of line 124. -/
def walk (P : Platform) (S : Nat) (env : Env) :
    Nat → List IfAddr → Option (List Device) → Run (Option (List Device))
  | _, [], devices => .val devices
  | i, r :: rs, devices =>
    match r.ifa_addr with
    | none => walk P S env (i + 1) rs devices
    | some sa =>
      match P.link_family with
      | none => .val devices
      | some fam =>
        if sa.sa_family ≠ fam then walk P S env (i + 1) rs devices
        else
          match get_device_entry S (env.grow i) (env.dup i) devices r.ifa_name with
          | .fault => .fault
          | .ret_null => .ret_null
          | .val ds =>
            if P.siocgifhwaddr then walk P S env (i + 1) rs (some ds)
            else
              match fill_from_record S r.ifa_name sa.lladdr ds with
              | .fault => .fault
              | .ret_null => .ret_null
              | .val ds1 => walk P S env (i + 1) rs (some ds1)

/-- The loop of lines 159-178 (compiled when `SIOCGIFHWADDR` is defined) over
the devices from index `j` on: `strcpy` of the name, `socket`, `ioctl`, then the
six appends. `.ret_null` is `goto err`, which ends in `return NULL`. -/
def fill_from_ioctl (S : Nat) (env : Env) : Nat → List Device → Run (List Device)
  | _, [] => .val []
  | j, d :: ds =>
    match d.name with
    | none => .fault
    | some _ =>
      if env.socket j then
        match env.ioctl j with
        | none => .ret_null
        | some raw =>
          match fill_from_ioctl S env (j + 1) ds with
          | .val ds1 => .val ({ d with mac := append_mac S d.mac raw } :: ds1)
          | .ret_null => .ret_null
          | .fault => .fault
      else .ret_null

/-- The sentinel entry of lines 188-189: NULL name, zeroed `mac`. -/
def sentinel (S : Nat) : Device := ⟨none, zeros S⟩

/-- Lines 181-191: the `realloc` for one more entry and the sentinel stored at
index `ndevices`. -/
def finalize (S : Nat) (env : Env) (ds : List Device) : Run (List Device) :=
  if env.final_grow then .val (ds ++ [sentinel S]) else .ret_null

/-- The array a registry pointer and `ndevices` denote: empty for NULL. -/
def entries (devices : Option (List Device)) : List Device :=
  match devices with
  | none => []
  | some ds => ds

/-- The function `get_devices` compiled under `HAVE_GETIFADDRS` (lines 85-206). -/
def get_devices_ifaddrs (P : Platform) (S : Nat) (env : Env) : Run (List Device) :=
  match env.getifaddrs with
  | none => .ret_null
  | some recs =>
    match walk P S env 0 recs none with
    | .fault => .fault
    | .ret_null => .ret_null
    | .val devices =>
      if P.siocgifhwaddr then
        match fill_from_ioctl S env 0 (entries devices) with
        | .fault => .fault
        | .ret_null => .ret_null
        | .val ds => finalize S env ds
      else finalize S env (entries devices)

/-- The function `get_devices`: the enumerating variant under
`HAVE_GETIFADDRS`, otherwise the stub of lines 208-211 that returns NULL. -/
def get_devices (P : Platform) (S : Nat) (env : Env) : Run (List Device) :=
  if P.have_getifaddrs then get_devices_ifaddrs P S env else .ret_null

/-! ## `internal_get_host_id` -/

/-- The `sizeof(devices[i].mac)` bytes `cli_md5_update` reads from a `mac`
array. -/
def mac_bytes (S : Nat) (d : Device) : List Nat :=
  (List.range S).map (fun i => d.mac.getD i 0)

/-- The loop of lines 236-237 from the current entry on: `fed` is the
concatenation of the arguments `cli_md5_update` has received so far. The loop
ends at the first entry with a NULL name; running off the array is a fault. -/
def hash_loop (S : Nat) : List Device → List Nat → Run (List Nat)
  | [], _ => .fault
  | d :: ds, fed =>
    match d.name with
    | none => .val fed
    | some _ => hash_loop S ds (fed ++ mac_bytes S d)

/-- The number of calls of `cli_md5_update` made by the loop of lines 236-237. -/
def update_calls : List Device → Nat
  | [] => 0
  | d :: ds =>
    match d.name with
    | none => 0
    | some _ => update_calls ds + 1

/-- The byte `raw_md5[i]` of the 16-byte digest the hash stored. -/
def digest_byte (digest : List Nat) (i : Nat) : Nat := digest.getD i 0 % 256

/-- The loop of lines 245-246 on the output buffer `out`:
`sprintf(printable_md5 + i*2, "%02x", raw_md5[i])` for `i` from 0 to 15. -/
def render_digest (out : List Nat) (digest : List Nat) : List Nat :=
  (List.range 16).foldl (fun o i => sprintf_at o (i * 2) (fmt_02x (digest_byte digest i))) out

/-- The bytes `internal_get_host_id` feeds to the hash between `cli_md5_init`
and `cli_md5_final` for the registry `devices`. -/
def hash_input (S : Nat) (devices : List Device) : Run (List Nat) := hash_loop S devices []

/-- The function `internal_get_host_id` (lines 219-249), for the hash `H`. The
value returned is the 33-byte output buffer. -/
def internal_get_host_id (H : List Nat → List Nat) (P : Platform) (S : Nat) (env : Env) :
    Run (List Nat) :=
  match get_devices P S env with
  | .fault => .fault
  | .ret_null => .ret_null
  | .val devices =>
    if env.out_alloc then
      match hash_input S devices with
      | .fault => .fault
      | .ret_null => .ret_null
      | .val fed => .val (render_digest (zeros 33) (H fed))
    else .ret_null

/-- Modelled from the spec: the size of the `mac` array of `struct device`,
declared in `hostid.h`; the spec gives the fixed-size buffer 6 bytes. -/
def MAC_SIZE : Nat := 6

/-- The platform of a Linux build: `getifaddrs`, `AF_PACKET` (17), `SIOCGIFHWADDR`. -/
def linux : Platform := ⟨true, some 17, true⟩

/-- The platform of a BSD build: `getifaddrs`, `AF_LINK` (18), no `SIOCGIFHWADDR`. -/
def bsd : Platform := ⟨true, some 18, false⟩

/-- A platform without `getifaddrs`: `get_devices` is the stub. -/
def no_getifaddrs : Platform := ⟨false, none, false⟩

/-! ## Specification vocabulary -/

/-- A buffer of size `S` holding the text `t` followed by zero bytes. -/
def pad (S : Nat) (t : List Nat) : List Nat := t ++ zeros (S - t.length)

/-- The hexadecimal rendering of a 16-byte digest: for each byte its high
nibble then its low nibble, as lowercase hex digits. -/
def hex_string (digest : List Nat) : List Nat :=
  (List.range 16).flatMap
    (fun i => [hex_digit (digest_byte digest i / 16), hex_digit (digest_byte digest i % 16)])

/-- An ASCII character in `0-9` or `a-f`. -/
def is_lower_hex (c : Nat) : Prop := (48 ≤ c ∧ c ≤ 57) ∨ (97 ≤ c ∧ c ≤ 102)

/-- A record the walk keeps: it has an address, of the platform's link-layer
family. -/
def is_link (P : Platform) (r : IfAddr) : Bool :=
  match r.ifa_addr, P.link_family with
  | some sa, some fam => decide (sa.sa_family = fam)
  | _, _ => false

/-- The interface names of the link-layer records, in list order. -/
def link_names (P : Platform) (recs : List IfAddr) : List String :=
  (recs.filter (is_link P)).map IfAddr.ifa_name

/-- The address bytes of the first link-layer record named `n`. -/
def first_addr (P : Platform) : List IfAddr → String → List Nat
  | [], _ => []
  | r :: rs, n =>
    match r.ifa_addr with
    | none => first_addr P rs n
    | some sa => if is_link P r = true ∧ r.ifa_name = n then sa.lladdr else first_addr P rs n

/-- An environment in which every request succeeds, for the records `recs` and
the `ioctl` answers `hw`. -/
def env_ok (recs : List IfAddr) (hw : Nat → List Nat) : Env :=
  ⟨some recs, fun _ => true, fun _ => true, fun _ => true, fun j => some (hw j), true, true⟩

/-- A hash for examples: the digest is the first 16 bytes fed, zero-extended. -/
def sample_hash (fed : List Nat) : List Nat := (List.range 16).map (fun i => fed.getD i 0)

/-- The `mac` array the device named `n` has when the walk over `recs` ends:
still zeroed when the addresses come from the `ioctl` loop, otherwise the six
groups of the first link-layer record named `n` appended to a zeroed array. -/
def walk_mac (P : Platform) (S : Nat) (recs : List IfAddr) (n : String) : List Nat :=
  if P.siocgifhwaddr then zeros S else append_mac S (zeros S) (first_addr P recs n)

/-- The entry the walk over `recs` leaves for the name `n`. -/
def walk_entry (P : Platform) (S : Nat) (recs : List IfAddr) (n : String) : Device :=
  ⟨some n, walk_mac P S recs n⟩

/-- The positions (counted from `i`) of the records at which the walk asks
`get_device_entry` to grow the registry: the first link-layer record of each
name not among `acc`. -/
def grow_requests (P : Platform) : Nat → List IfAddr → List String → List Nat
  | _, [], _ => []
  | i, r :: rs, acc =>
    if is_link P r = true then
      if r.ifa_name ∈ acc then grow_requests P (i + 1) rs acc
      else i :: grow_requests P (i + 1) rs (acc ++ [r.ifa_name])
    else grow_requests P (i + 1) rs acc

/-- A registry whose last entry was left with a NULL name by a failed name
copy, on the `ioctl` path: the entries before it are named. -/
def NullTail (P : Platform) (env : Env) (r : Option (List Device)) : Prop :=
  P.siocgifhwaddr = true ∧ (∃ k, env.dup k = false) ∧
    ∃ named m, entries r = named ++ [⟨none, m⟩] ∧ ∀ e ∈ named, e.name ≠ none

/-- What the walk is expected to end with: the registry entries `all`, every
growth requested (at the positions `reqs`) having succeeded; a registry with a
NULL name at its end after a failed name copy; a NULL return after a failed
growth; or a fault after a failed name copy. -/
def WalkPost (P : Platform) (env : Env) (all : List Device) (reqs : List Nat) :
    Run (Option (List Device)) → Prop
  | .val r => (entries r = all ∧ ∀ k ∈ reqs, env.grow k = true) ∨ NullTail P env r
  | .ret_null => ∃ k ∈ reqs, env.grow k = false
  | .fault => ∃ k, env.dup k = false

/-- An environment in which every name copy fails and every other request
succeeds, for the records `recs`. -/
def env_dup_fails (recs : List IfAddr) : Env :=
  ⟨some recs, fun _ => true, fun _ => false, fun _ => true, fun _ => some [], true, true⟩

/-- Every `socket` and every `ioctl` succeeds for the devices `ns`, the first
of which has index `j`. -/
def ioctls_ok (env : Env) (j : Nat) (ns : List String) : Bool :=
  (ns.enumFrom j).all (fun p => env.socket p.1 && (env.ioctl p.1).isSome)

/-- The entries of the registry `get_devices` is expected to return, before the
sentinel: one per distinct link-layer name in first-seen order. With
`SIOCGIFHWADDR` the `mac` of the device at index `j` is the six groups of the
answer of its one `ioctl`; without it, the six groups of the first link-layer
record of that name; in both cases appended to a zeroed array. -/
def expected_entries (P : Platform) (S : Nat) (env : Env) (recs : List IfAddr) : List Device :=
  if P.siocgifhwaddr then
    ((first_seen (link_names P recs)).enumFrom 0).map
      (fun p => ⟨some p.2, append_mac S (zeros S) ((env.ioctl p.1).getD [])⟩)
  else
    (first_seen (link_names P recs)).map
      (fun n => ⟨some n, append_mac S (zeros S) (first_addr P recs n)⟩)

/-- What `get_devices` is expected to end with for the records `recs`: the
finalized registry, every request having succeeded; NULL after a failed
request; or a fault after a failed name copy. -/
def DevicesPost (P : Platform) (S : Nat) (env : Env) (recs : List IfAddr) :
    Run (List Device) → Prop
  | .val reg =>
    reg = expected_entries P S env recs ++ [sentinel S] ∧
      (∀ k ∈ grow_requests P 0 recs [], env.grow k = true) ∧ env.final_grow = true ∧
      (P.siocgifhwaddr = true → ioctls_ok env 0 (first_seen (link_names P recs)) = true)
  | .ret_null =>
    (∃ k ∈ grow_requests P 0 recs [], env.grow k = false) ∨ env.final_grow = false ∨
      (P.siocgifhwaddr = true ∧ ioctls_ok env 0 (first_seen (link_names P recs)) = false) ∨
      (P.siocgifhwaddr = true ∧ ∃ k, env.dup k = false)
  | .fault => ∃ k, env.dup k = false

/-- A freshly added entry: the copied name and a zeroed `mac`. -/
def fresh (S : Nat) (n : String) : Device := ⟨some n, zeros S⟩

/-- Every entry of the array except possibly the last has a non-NULL name. -/
def NamedButLast (ds : List Device) : Prop :=
  ∀ o ∈ (ds.map Device.name).dropLast, o ≠ none

/-! ## Properties of `get_device_entry` -/

theorem find_entry_set_name (name : String) (b : Bool) :
    ∀ (ds : List Device) (i : Nat), find_entry name ds = .val (some i) →
      set_name_if_null b name i ds = ds := by
  intro ds
  induction ds with
  | nil => intro i h; simp [find_entry] at h
  | cons d ds ih =>
    intro i h
    unfold find_entry at h
    cases hd : d.name with
    | none => simp [hd] at h
    | some n =>
      simp only [hd] at h
      by_cases hn : n = name
      · simp only [hn, if_true, Run.val.injEq, Option.some.injEq] at h
        subst h
        simp [set_name_if_null, hd]
      · simp only [hn, if_false] at h
        cases hf : find_entry name ds with
        | val o =>
          cases o with
          | none => simp [hf] at h
          | some j =>
            simp only [hf, Run.val.injEq, Option.some.injEq] at h
            subst h
            simp [set_name_if_null, ih j hf]
        | ret_null => simp [hf] at h
        | fault => simp [hf] at h

theorem find_entry_none (name : String) :
    ∀ (ds : List Device), find_entry name ds = .val none →
      ∀ e ∈ ds, e.name ≠ none ∧ e.name ≠ some name := by
  intro ds
  induction ds with
  | nil => intro _ e he; simp at he
  | cons d ds ih =>
    intro h
    unfold find_entry at h
    cases hd : d.name with
    | none => simp [hd] at h
    | some n =>
      simp only [hd] at h
      by_cases hn : n = name
      · simp [hn] at h
      · simp only [hn, if_false] at h
        cases hf : find_entry name ds with
        | val o =>
          cases o with
          | none =>
            intro e he
            rcases List.mem_cons.1 he with rfl | he
            · simp [hd, hn]
            · exact ih hf e he
          | some j => simp [hf] at h
        | ret_null => simp [hf] at h
        | fault => simp [hf] at h

theorem find_entry_absent (name : String) :
    ∀ (ds : List Device), (∀ e ∈ ds, e.name ≠ none) → some name ∉ ds.map Device.name →
      find_entry name ds = .val none := by
  intro ds
  induction ds with
  | nil => intro _ _; rfl
  | cons d ds ih =>
    intro hall hno
    have hd := hall d (List.mem_cons_self _ _)
    cases hn : d.name with
    | none => exact absurd hn hd
    | some n =>
      have hne : n ≠ name := by
        intro h
        apply hno
        simp [hn, h]
      have hrec := ih (fun e he => hall e (List.mem_cons_of_mem _ he))
        (fun h => hno (by simp only [List.map_cons, List.mem_cons]; exact Or.inr h))
      simp [find_entry, hn, hne, hrec]

theorem find_entry_present (name : String) :
    ∀ (pre : List Device) (d : Device) (post : List Device),
      (∀ e ∈ pre, e.name ≠ none) → d.name = some name →
      ∃ i, find_entry name (pre ++ d :: post) = .val (some i) := by
  intro pre
  induction pre with
  | nil =>
    intro d post _ hd
    exact ⟨0, by simp [find_entry, hd]⟩
  | cons e pre ih =>
    intro d post hpre hd
    have he := hpre e (List.mem_cons_self _ _)
    cases hn : e.name with
    | none => exact absurd hn he
    | some n =>
      by_cases hnn : n = name
      · exact ⟨0, by simp [find_entry, hn, hnn]⟩
      · obtain ⟨i, hi⟩ := ih d post (fun x hx => hpre x (List.mem_cons_of_mem _ hx)) hd
        exact ⟨i + 1, by simp [find_entry, hn, hnn, hi]⟩

theorem set_name_append (b : Bool) (name : String) (m : List Nat) :
    ∀ (ds : List Device),
      set_name_if_null b name ds.length (ds ++ [⟨none, m⟩]) = ds ++ [⟨strdup b name, m⟩] := by
  intro ds
  induction ds with
  | nil => simp [set_name_if_null]
  | cons d ds ih => simp [set_name_if_null, ih]

/-- The found path: a name stored in the array, with no NULL name before it,
leaves the array as it is, whatever the allocator would answer. -/
theorem get_device_entry_found (S : Nat) (a b : Bool) (name : String)
    (pre : List Device) (d : Device) (post : List Device)
    (hpre : ∀ e ∈ pre, e.name ≠ none) (hd : d.name = some name) :
    get_device_entry S a b (some (pre ++ d :: post)) name = .val (pre ++ d :: post) := by
  obtain ⟨i, hi⟩ := find_entry_present name pre d post hpre hd
  simp [get_device_entry, hi, find_entry_set_name name b _ i hi]

/-- The growth path: a name not stored in an array of named entries is added at
the end, when the growth succeeds. -/
theorem get_device_entry_new (S : Nat) (b : Bool) (name : String) (ds : List Device)
    (hall : ∀ e ∈ ds, e.name ≠ none) (hno : some name ∉ ds.map Device.name) :
    get_device_entry S true b (some ds) name = .val (ds ++ [⟨strdup b name, zeros S⟩]) := by
  simp [get_device_entry, find_entry_absent name ds hall hno, set_name_append]

/-- The growth path when the allocation fails: NULL. -/
theorem get_device_entry_grow_fails (S : Nat) (b : Bool) (name : String) (ds : List Device)
    (hall : ∀ e ∈ ds, e.name ≠ none) (hno : some name ∉ ds.map Device.name) :
    get_device_entry S false b (some ds) name = .ret_null := by
  simp [get_device_entry, find_entry_absent name ds hall hno]

theorem namedButLast_found (name : String) (ds : List Device) (h : NamedButLast ds)
    (hin : some name ∈ ds.map Device.name) :
    ∃ pre d post, ds = pre ++ d :: post ∧ (∀ e ∈ pre, e.name ≠ none) ∧ d.name = some name := by
  obtain ⟨d, hd, hdn⟩ := List.mem_map.1 hin
  obtain ⟨pre, post, rfl⟩ := List.append_of_mem hd
  refine ⟨pre, d, post, rfl, ?_, hdn⟩
  intro e he
  apply h
  simp only [List.map_append, List.map_cons, List.dropLast_append_cons]
  exact List.mem_append_left _ (List.mem_map_of_mem _ he)

theorem get_device_entry_namedButLast (S : Nat) (a b : Bool) (name : String)
    (devices : Option (List Device)) (ds1 : List Device)
    (h : ∀ ds, devices = some ds → NamedButLast ds)
    (hrun : get_device_entry S a b devices name = .val ds1) : NamedButLast ds1 := by
  cases devices with
  | none =>
    cases a with
    | false => simp [get_device_entry] at hrun
    | true =>
      simp only [get_device_entry, if_true, Run.val.injEq] at hrun
      subst hrun
      simp [NamedButLast, set_name_if_null]
  | some ds =>
    unfold get_device_entry at hrun
    cases hf : find_entry name ds with
    | fault => simp [hf] at hrun
    | ret_null => simp [hf] at hrun
    | val o =>
      cases o with
      | some i =>
        simp only [hf, Run.val.injEq] at hrun
        rw [find_entry_set_name name b ds i hf] at hrun
        subst hrun
        exact h ds rfl
      | none =>
        cases a with
        | false => simp [hf] at hrun
        | true =>
          simp only [hf, if_true, Run.val.injEq, set_name_append] at hrun
          subst hrun
          intro o ho
          simp only [List.map_append, List.map_cons, List.map_nil, List.dropLast_concat] at ho
          obtain ⟨e, he, rfl⟩ := List.mem_map.1 ho
          exact (find_entry_none name ds hf e he).1

theorem set_mac_names (m : List Nat) :
    ∀ (i : Nat) (ds : List Device), (set_mac m i ds).map Device.name = ds.map Device.name := by
  intro i ds
  induction ds generalizing i with
  | nil => cases i <;> rfl
  | cons d ds ih =>
    cases i with
    | zero => simp [set_mac]
    | succ i => simp [set_mac, ih]

theorem run_ops_namedButLast (S : Nat) :
    ∀ (ops : List Op) (devices r : Option (List Device)),
      (∀ ds, devices = some ds → NamedButLast ds) → run_ops S devices ops = .val r →
      ∀ ds, r = some ds → NamedButLast ds := by
  intro ops
  induction ops with
  | nil =>
    intro devices r h hrun
    simp only [run_ops, Run.val.injEq] at hrun
    subst hrun
    exact h
  | cons op ops ih =>
    intro devices r h hrun
    cases op with
    | upsert n a b =>
      unfold run_ops at hrun
      cases hg : get_device_entry S a b devices n with
      | fault => simp [hg] at hrun
      | ret_null => simp [hg] at hrun
      | val ds1 =>
        simp only [hg] at hrun
        have h1 := get_device_entry_namedButLast S a b n devices ds1 h hg
        exact ih (some ds1) r (fun ds hds => by cases hds; exact h1) hrun
    | set_mac i m =>
      unfold run_ops at hrun
      refine ih _ r ?_ hrun
      intro ds hds
      cases devices with
      | none => simp at hds
      | some ds0 =>
        simp only [Option.map_some', Option.some.injEq] at hds
        subst hds
        have := h ds0 rfl
        simpa [NamedButLast, set_mac_names] using this

/-! ## `first_seen` -/

theorem first_seen_filter_old (acc : List String) (n : String) (ns : List String)
    (h : n ∈ acc) :
    (first_seen (n :: ns)).filter (fun m => m ∉ acc) =
      (first_seen ns).filter (fun m => m ∉ acc) := by
  simp only [first_seen, List.filter_cons, List.filter_filter]
  simp only [h, not_true_eq_false, decide_False, Bool.false_eq_true, if_false]
  apply List.filter_congr
  intro m _
  by_cases hm : m ∈ acc
  · simp [hm]
  · have : m ≠ n := fun e => hm (e ▸ h)
    simp [hm, this]

theorem first_seen_filter_new (acc : List String) (n : String) (ns : List String)
    (h : n ∉ acc) :
    (first_seen (n :: ns)).filter (fun m => m ∉ acc) =
      n :: (first_seen ns).filter (fun m => m ∉ acc ++ [n]) := by
  simp only [first_seen, List.filter_cons, List.filter_filter]
  simp only [h, not_false_eq_true, decide_True, if_true, List.cons.injEq, true_and]
  apply List.filter_congr
  intro m _
  simp [List.mem_append, not_or]

/-- C2: in every registry built by calls of `get_device_entry` (whatever their
allocations answered) and stores into `mac` arrays, a further call with a name
already stored returns the registry unchanged, entry for entry (same count,
same names, same `mac` arrays), whatever the allocator would answer. -/
theorem C2_upsert_stored_name_unchanged (S : Nat) (ops : List Op) (ds : List Device)
    (name : String) (a b : Bool)
    (hbuilt : run_ops S none ops = .val (some ds))
    (hin : some name ∈ ds.map Device.name) :
    get_device_entry S a b (some ds) name = .val ds := by
  have hinv := run_ops_namedButLast S ops none (some ds) (fun _ h => by simp at h) hbuilt ds rfl
  obtain ⟨pre, d, post, rfl, hpre, hd⟩ := namedButLast_found name ds hinv hin
  exact get_device_entry_found S a b name pre d post hpre hd

/-- C2 at a registry built from two names, one `mac` store and a failed name
copy: upserting "lo" again returns it unchanged even with a failing allocator. -/
theorem C2_upsert_stored_name_unchanged_witness :
    run_ops 6 none [.upsert "lo" true true, .set_mac 0 [48, 49, 58, 48, 0, 0],
        .upsert "eth0" true false]
      = .val (some [⟨some "lo", [48, 49, 58, 48, 0, 0]⟩, ⟨none, zeros 6⟩]) ∧
    some "lo" ∈ [(⟨some "lo", [48, 49, 58, 48, 0, 0]⟩ : Device), ⟨none, zeros 6⟩].map Device.name ∧
    get_device_entry 6 false false
        (some [⟨some "lo", [48, 49, 58, 48, 0, 0]⟩, ⟨none, zeros 6⟩]) "lo"
      = .val [⟨some "lo", [48, 49, 58, 48, 0, 0]⟩, ⟨none, zeros 6⟩] :=
  ⟨by decide, by decide,
    C2_upsert_stored_name_unchanged 6
      [.upsert "lo" true true, .set_mac 0 [48, 49, 58, 48, 0, 0], .upsert "eth0" true false]
      [⟨some "lo", [48, 49, 58, 48, 0, 0]⟩, ⟨none, zeros 6⟩] "lo" false false
      (by decide) (by decide)⟩

/-! ## The `mac` buffer -/

theorem hex_digit_ne_zero (n : Nat) : hex_digit n ≠ 0 := by
  unfold hex_digit
  split <;> omega

theorem fmt_02x_colon_ne_zero (b : Nat) : ∀ c ∈ fmt_02x_colon b, c ≠ 0 := by
  intro c hc
  simp only [fmt_02x_colon, fmt_02x, List.cons_append, List.nil_append, List.mem_cons,
    List.mem_singleton, List.mem_nil_iff, or_false] at hc
  rcases hc with rfl | rfl | rfl
  · exact hex_digit_ne_zero _
  · exact hex_digit_ne_zero _
  · decide

theorem fmt_02x_colon_length (b : Nat) : (fmt_02x_colon b).length = 3 := rfl

theorem pad_length (S : Nat) (t : List Nat) (h : t.length ≤ S) : (pad S t).length = S := by
  simp [pad, zeros]
  omega

theorem takeWhile_pad (S : Nat) (t : List Nat) (ht : ∀ c ∈ t, c ≠ 0) :
    (pad S t).takeWhile (fun c => c ≠ 0) = t := by
  unfold pad zeros
  rw [List.takeWhile_append_of_pos (by simpa using ht)]
  cases h : S - t.length with
  | zero => simp
  | succ k => simp [List.replicate_succ]

theorem text_pad (S : Nat) (t : List Nat) (ht : ∀ c ∈ t, c ≠ 0) : text (pad S t) = t :=
  takeWhile_pad S t ht

theorem strlen_pad (S : Nat) (t : List Nat) (ht : ∀ c ∈ t, c ≠ 0) :
    strlen (pad S t) = t.length := by
  unfold strlen
  rw [takeWhile_pad S t ht]

theorem to_size_t_of_lt (n : Nat) (h : n < 2 ^ 64) : to_size_t (n : Int) = n := by
  unfold to_size_t
  have h1 : ((n : Int) % (2 : Int) ^ 64) = (n : Int) := by
    apply Int.emod_eq_of_lt
    · exact Int.ofNat_nonneg n
    · exact_mod_cast h
  rw [h1]
  simp

theorem mac_room_pad (S : Nat) (t : List Nat) (ht : ∀ c ∈ t, c ≠ 0) (hlen : t.length < S) :
    mac_room S (pad S t) = ((S - t.length - 1 : Nat) : Int) := by
  unfold mac_room
  rw [strlen_pad S t ht]
  omega

/-- One append on a buffer holding the text `t` and zero bytes after it: the
text grows by as much of the three formatted characters as leaves two bytes of
the buffer free, and zero bytes follow it. -/
theorem mac_step_pad (S : Nat) (hS : S < 2 ^ 64) (t : List Nat) (b : Nat)
    (ht : ∀ c ∈ t, c ≠ 0) (hlen : t.length < S) :
    mac_step S (pad S t) b = pad S (t ++ (fmt_02x_colon b).take (S - 2 - t.length)) := by
  unfold mac_step
  rw [mac_room_pad S t ht hlen, to_size_t_of_lt _ (by omega), strlen_pad S t ht]
  unfold snprintf_at
  by_cases h0 : S - t.length - 1 = 0
  · have : S - 2 - t.length = 0 := by omega
    simp [h0, this]
  · rw [if_neg h0]
    have hk : S - t.length - 1 - 1 = S - 2 - t.length := by omega
    rw [hk]
    have hfl : ((fmt_02x_colon b).take (S - 2 - t.length)).length ≤ S - 2 - t.length := by
      simp [List.length_take]
    generalize hs : (fmt_02x_colon b).take (S - 2 - t.length) = s at hfl
    unfold write_at
    have hpl : (pad S t).length = S := pad_length S t (by omega)
    rw [hpl]
    have h1 : (pad S t).take t.length = t := by simp [pad]
    have h2 : (s ++ [0]).take (S - t.length) = s ++ [0] := by
      apply List.take_of_length_le
      simp
      omega
    have h3 : (pad S t).drop (t.length + (s ++ [0]).length) =
        zeros (S - t.length - (s.length + 1)) := by
      unfold pad
      rw [List.drop_append]
      simp [zeros]
    rw [h1, h2, h3]
    unfold pad
    have h4 : S - (t ++ s).length = (S - t.length - (s.length + 1)) + 1 := by
      simp
      omega
    rw [h4]
    simp [zeros, List.replicate_succ]

/-- Appends from a zeroed buffer on: after any sequence of appends the buffer
holds the first `S - 2` characters of the concatenated groups, then zeros. -/
theorem steps_pad (S : Nat) (h1 : 1 ≤ S) (hS : S < 2 ^ 64) :
    ∀ (bs : List Nat) (T : List Nat), (∀ c ∈ T, c ≠ 0) →
      bs.foldl (mac_step S) (pad S (T.take (S - 2))) =
        pad S ((T ++ bs.flatMap fmt_02x_colon).take (S - 2)) := by
  intro bs
  induction bs with
  | nil => intro T _; simp
  | cons b bs ih =>
    intro T hT
    have htake : ∀ c ∈ T.take (S - 2), c ≠ 0 := fun c hc => hT c (List.mem_of_mem_take hc)
    have hlen : (T.take (S - 2)).length < S := by
      simp [List.length_take]
      omega
    rw [List.foldl_cons, mac_step_pad S hS _ b htake hlen]
    have hTb : ∀ c ∈ T ++ fmt_02x_colon b, c ≠ 0 := by
      intro c hc
      rcases List.mem_append.1 hc with h | h
      · exact hT c h
      · exact fmt_02x_colon_ne_zero b c h
    have key : T.take (S - 2) ++ (fmt_02x_colon b).take (S - 2 - (T.take (S - 2)).length) =
        (T ++ fmt_02x_colon b).take (S - 2) := by
      rw [List.take_append_eq_append_take]
      congr 2
      simp [List.length_take]
      omega
    rw [key, ih (T ++ fmt_02x_colon b) hTb]
    simp [List.append_assoc]

theorem append_mac_eq_foldl (S : Nat) (buf raw : List Nat) :
    append_mac S buf raw = ((List.range 6).map (fun i => raw.getD i 0)).foldl (mac_step S) buf := by
  unfold append_mac
  rw [List.foldl_map]

theorem full_mac_text_eq (raw : List Nat) :
    full_mac_text raw = ((List.range 6).map (fun i => raw.getD i 0)).flatMap fmt_02x_colon := by
  unfold full_mac_text
  rw [List.flatMap_map]

theorem full_mac_text_length (raw : List Nat) : (full_mac_text raw).length = 18 := rfl

/-- The six appends on a zeroed buffer of size `S`: the buffer is left holding
the first `S - 2` characters of the full text, then zeros. -/
theorem append_mac_zeros (S : Nat) (h1 : 1 ≤ S) (hS : S < 2 ^ 64) (raw : List Nat) :
    append_mac S (zeros S) raw = pad S ((full_mac_text raw).take (S - 2)) := by
  have := steps_pad S h1 hS ((List.range 6).map (fun i => raw.getD i 0)) [] (by simp)
  simp only [List.take_nil, List.nil_append] at this
  rw [append_mac_eq_foldl, full_mac_text_eq, ← this]
  simp [pad]

theorem full_mac_text_ne_zero (raw : List Nat) : ∀ c ∈ full_mac_text raw, c ≠ 0 := by
  intro c hc
  unfold full_mac_text at hc
  obtain ⟨i, _, hi⟩ := List.mem_flatMap.1 hc
  exact fmt_02x_colon_ne_zero _ c hi

/-- Once six groups have been appended to a zeroed buffer of at most 20 bytes,
the buffer is full: six more appends leave it as it is. -/
theorem append_mac_absorb (S : Nat) (h1 : 1 ≤ S) (h20 : S ≤ 20) (raw raw2 : List Nat) :
    append_mac S (append_mac S (zeros S) raw) raw2 = append_mac S (zeros S) raw := by
  have hS : S < 2 ^ 64 := by omega
  rw [append_mac_zeros S h1 hS raw, append_mac_eq_foldl,
    steps_pad S h1 hS _ (full_mac_text raw) (full_mac_text_ne_zero raw)]
  rw [List.take_append_of_le_length (by rw [full_mac_text_length]; omega)]

/-- C3 (as amended): for every six raw bytes and every buffer size `S`
(`sizeof(mac)`, at least 1), the six-step append loop run on a zeroed `mac`
leaves as text the first `S - 2` characters of the 18-character text
`hex(b0) ':' ... hex(b5) ':'`; the text is all 18 characters exactly when
`S ≥ 20`, and the bytes AB CD 01 02 03 04 render as "ab:cd:01:02:03:04:"
exactly when `S ≥ 20`. -/
theorem C3_append_loop_text (S : Nat) (h1 : 1 ≤ S) (hS : S < 2 ^ 64)
    (b0 b1 b2 b3 b4 b5 : Nat) :
    text (append_mac S (zeros S) [b0, b1, b2, b3, b4, b5]) =
        (fmt_02x_colon b0 ++ fmt_02x_colon b1 ++ fmt_02x_colon b2 ++ fmt_02x_colon b3 ++
          fmt_02x_colon b4 ++ fmt_02x_colon b5).take (S - 2) ∧
    (text (append_mac S (zeros S) [b0, b1, b2, b3, b4, b5]) =
        fmt_02x_colon b0 ++ fmt_02x_colon b1 ++ fmt_02x_colon b2 ++ fmt_02x_colon b3 ++
          fmt_02x_colon b4 ++ fmt_02x_colon b5 ↔ 20 ≤ S) ∧
    (text (append_mac S (zeros S) [0xAB, 0xCD, 0x01, 0x02, 0x03, 0x04]) =
        ascii "ab:cd:01:02:03:04:" ↔ 20 ≤ S) := by
  have key : ∀ raw : List Nat,
      text (append_mac S (zeros S) raw) = (full_mac_text raw).take (S - 2) := by
    intro raw
    rw [append_mac_zeros S h1 hS raw]
    exact text_pad S _ (fun c hc => full_mac_text_ne_zero raw c (List.mem_of_mem_take hc))
  have full : ∀ raw : List Nat,
      (full_mac_text raw).take (S - 2) = full_mac_text raw ↔ 20 ≤ S := by
    intro raw
    rw [List.take_eq_self_iff, full_mac_text_length]
    omega
  have e : full_mac_text [b0, b1, b2, b3, b4, b5] =
      fmt_02x_colon b0 ++ fmt_02x_colon b1 ++ fmt_02x_colon b2 ++ fmt_02x_colon b3 ++
        fmt_02x_colon b4 ++ fmt_02x_colon b5 := rfl
  have e2 : full_mac_text [0xAB, 0xCD, 0x01, 0x02, 0x03, 0x04] = ascii "ab:cd:01:02:03:04:" := by
    decide
  refine ⟨?_, ?_, ?_⟩
  · rw [key, e]
  · rw [key, ← e]
    exact full _
  · rw [key, ← e2]
    exact full _

/-- C3 at a 19-byte buffer: the loop leaves 17 characters, the last colon cut. -/
theorem C3_append_loop_text_witness :
    1 ≤ 19 ∧ 19 < 2 ^ 64 ∧
    text (append_mac 19 (zeros 19) [0xAB, 0xCD, 0x01, 0x02, 0x03, 0x04]) =
      (fmt_02x_colon 0xAB ++ fmt_02x_colon 0xCD ++ fmt_02x_colon 0x01 ++ fmt_02x_colon 0x02 ++
        fmt_02x_colon 0x03 ++ fmt_02x_colon 0x04).take (19 - 2) :=
  ⟨by decide, by decide,
    (C3_append_loop_text 19 (by decide) (by decide) 0xAB 0xCD 0x01 0x02 0x03 0x04).1⟩

/-- C3 fails as stated: with the 6-byte `mac` buffer the bytes
AB CD 01 02 03 04 render as "ab:c", and with a 19-byte buffer as
"ab:cd:01:02:03:04"; neither is the 18-character "ab:cd:01:02:03:04:". -/
theorem C3_counterexample :
    text (append_mac MAC_SIZE (zeros MAC_SIZE) [0xAB, 0xCD, 0x01, 0x02, 0x03, 0x04]) =
      ascii "ab:c" ∧
    text (append_mac MAC_SIZE (zeros MAC_SIZE) [0xAB, 0xCD, 0x01, 0x02, 0x03, 0x04]) ≠
      ascii "ab:cd:01:02:03:04:" ∧
    text (append_mac 19 (zeros 19) [0xAB, 0xCD, 0x01, 0x02, 0x03, 0x04]) =
      ascii "ab:cd:01:02:03:04" ∧
    text (append_mac 19 (zeros 19) [0xAB, 0xCD, 0x01, 0x02, 0x03, 0x04]) ≠
      ascii "ab:cd:01:02:03:04:" := by
  refine ⟨by decide, by decide, by decide, by decide⟩

/-! ## The hash loop and the rendering of the digest -/

theorem mac_bytes_eq (S : Nat) (d : Device) (h : d.mac.length = S) : mac_bytes S d = d.mac := by
  unfold mac_bytes
  apply List.ext_getElem
  · simp [h]
  · intro i h1 h2
    simp [List.getD_eq_getElem?_getD, List.getElem?_eq_getElem h2]

theorem mac_bytes_length (S : Nat) (d : Device) : (mac_bytes S d).length = S := by
  simp [mac_bytes]

theorem hash_loop_named (S : Nat) (s : Device) (rest : List Device) (hs : s.name = none) :
    ∀ (ds : List Device) (fed : List Nat), (∀ d ∈ ds, d.name ≠ none) →
      hash_loop S (ds ++ s :: rest) fed = .val (fed ++ ds.flatMap (mac_bytes S)) := by
  intro ds
  induction ds with
  | nil => intro fed _; simp [hash_loop, hs]
  | cons d ds ih =>
    intro fed hall
    have hd := hall d (List.mem_cons_self _ _)
    cases hn : d.name with
    | none => exact absurd hn hd
    | some n =>
      simp [hash_loop, hn, ih (fed ++ mac_bytes S d)
        (fun e he => hall e (List.mem_cons_of_mem _ he)), List.append_assoc]

theorem update_calls_named (s : Device) (rest : List Device) (hs : s.name = none) :
    ∀ (ds : List Device), (∀ d ∈ ds, d.name ≠ none) →
      update_calls (ds ++ s :: rest) = ds.length := by
  intro ds
  induction ds with
  | nil => intro _; simp [update_calls, hs]
  | cons d ds ih =>
    intro hall
    have hd := hall d (List.mem_cons_self _ _)
    cases hn : d.name with
    | none => exact absurd hn hd
    | some n =>
      simp [update_calls, hn, ih (fun e he => hall e (List.mem_cons_of_mem _ he))]

theorem flatMap_length_const {α : Type} (f : α → List Nat) (k : Nat) :
    ∀ (l : List α), (∀ a ∈ l, (f a).length = k) → (l.flatMap f).length = k * l.length := by
  intro l
  induction l with
  | nil => intro _; simp
  | cons a l ih =>
    intro h
    simp only [List.flatMap_cons, List.length_append, List.length_cons]
    rw [ih (fun x hx => h x (List.mem_cons_of_mem _ hx)), h a (List.mem_cons_self _ _)]
    ring

theorem flatMap_congr_mem {α : Type} (f g : α → List Nat) :
    ∀ (l : List α), (∀ a ∈ l, f a = g a) → l.flatMap f = l.flatMap g := by
  intro l
  induction l with
  | nil => intro _; rfl
  | cons a l ih =>
    intro h
    simp only [List.flatMap_cons]
    rw [ih (fun x hx => h x (List.mem_cons_of_mem _ hx)), h a (List.mem_cons_self _ _)]

theorem sprintf_at_pad (N : Nat) (t : List Nat) (x : Nat) (h : t.length + 3 ≤ N) :
    sprintf_at (pad N t) t.length (fmt_02x x) = pad N (t ++ fmt_02x x) := by
  unfold sprintf_at write_at
  have hpl : (pad N t).length = N := pad_length N t (by omega)
  have h1 : (pad N t).take t.length = t := by simp [pad]
  have h2 : (fmt_02x x ++ [0]).take (N - t.length) = fmt_02x x ++ [0] := by
    apply List.take_of_length_le
    simp [fmt_02x]
    omega
  have h3 : (pad N t).drop (t.length + (fmt_02x x ++ [0]).length) = zeros (N - t.length - 3) := by
    unfold pad
    rw [List.drop_append]
    simp [zeros, fmt_02x]
  rw [hpl, h1, h2, h3]
  unfold pad
  have h4 : N - (t ++ fmt_02x x).length = (N - t.length - 3) + 1 := by
    simp [fmt_02x]
    omega
  rw [h4]
  simp [zeros, List.replicate_succ]

theorem render_fold (N : Nat) (f : Nat → Nat) :
    ∀ (n : Nat), 2 * n + 1 ≤ N →
      (List.range n).foldl (fun o i => sprintf_at o (i * 2) (fmt_02x (f i))) (zeros N) =
        pad N ((List.range n).flatMap (fun i => fmt_02x (f i))) := by
  intro n
  induction n with
  | zero => intro _; simp [pad]
  | succ n ih =>
    intro h
    have hlen : ((List.range n).flatMap (fun i => fmt_02x (f i))).length = n * 2 := by
      rw [flatMap_length_const (fun i => fmt_02x (f i)) 2 _ (fun a _ => rfl)]
      simp
      ring
    rw [List.range_succ, List.foldl_append, ih (by omega), List.flatMap_append]
    simp only [List.foldl_cons, List.foldl_nil, List.flatMap_cons, List.flatMap_nil,
      List.append_nil]
    rw [← hlen]
    exact sprintf_at_pad N _ (f n) (by omega)

/-- The sixteen `sprintf` calls on the zeroed 33-byte buffer leave the 32 hex
characters of the digest and a zero byte after them. -/
theorem render_digest_eq (digest : List Nat) :
    render_digest (zeros 33) digest = hex_string digest ++ [0] := by
  have e : ∀ i, fmt_02x (digest_byte digest i) =
      [hex_digit (digest_byte digest i / 16), hex_digit (digest_byte digest i % 16)] := by
    intro i
    simp [fmt_02x, digest_byte]
  have hl : (hex_string digest).length = 32 := by
    unfold hex_string
    rw [flatMap_length_const (fun i => [hex_digit (digest_byte digest i / 16),
      hex_digit (digest_byte digest i % 16)]) 2 _ (fun a _ => rfl)]
    rfl
  unfold render_digest
  rw [render_fold 33 (digest_byte digest) 16 (by omega)]
  simp only [e]
  unfold pad
  rw [show (List.range 16).flatMap (fun i => [hex_digit (digest_byte digest i / 16),
      hex_digit (digest_byte digest i % 16)]) = hex_string digest from rfl, hl]
  rfl

theorem hex_string_length (digest : List Nat) : (hex_string digest).length = 32 := by
  unfold hex_string
  rw [flatMap_length_const (fun i => [hex_digit (digest_byte digest i / 16),
    hex_digit (digest_byte digest i % 16)]) 2 _ (fun a _ => rfl)]
  rfl

theorem hex_digit_lower (n : Nat) (h : n < 16) : is_lower_hex (hex_digit n) := by
  unfold is_lower_hex hex_digit
  split <;> omega

theorem digest_byte_lt (digest : List Nat) (i : Nat) : digest_byte digest i < 256 := by
  unfold digest_byte
  omega

theorem hex_string_lower (digest : List Nat) : ∀ c ∈ hex_string digest, is_lower_hex c := by
  intro c hc
  unfold hex_string at hc
  obtain ⟨i, _, hi⟩ := List.mem_flatMap.1 hc
  have hlt := digest_byte_lt digest i
  simp only [List.mem_cons, List.mem_singleton, List.mem_nil_iff, or_false] at hi
  rcases hi with rfl | rfl
  · exact hex_digit_lower _ (by omega)
  · exact hex_digit_lower _ (by omega)

theorem hex_string_ne_zero (digest : List Nat) : ∀ c ∈ hex_string digest, c ≠ 0 := by
  intro c hc
  have := hex_string_lower digest c hc
  unfold is_lower_hex at this
  omega

theorem hex_string_getD (digest : List Nat) (i : Nat) (h : i < 16) :
    (hex_string digest ++ [0]).getD (2 * i) 0 = hex_digit (digest_byte digest i / 16) ∧
    (hex_string digest ++ [0]).getD (2 * i + 1) 0 = hex_digit (digest_byte digest i % 16) := by
  have : i ∈ List.range 16 := List.mem_range.2 h
  simp only [List.range, List.range.loop, List.mem_cons, List.mem_singleton, List.mem_nil_iff,
    or_false] at this
  rcases this with rfl | rfl | rfl | rfl | rfl | rfl | rfl | rfl | rfl | rfl | rfl | rfl |
    rfl | rfl | rfl | rfl <;> exact ⟨rfl, rfl⟩

/-- The bytes fed to the hash for a finalized registry whose `mac` arrays have
size `S`: the concatenation of the arrays of the named entries, `S` bytes each. -/
theorem hash_input_concat (S : Nat) (ds rest : List Device) (s : Device)
    (hn : ∀ d ∈ ds, d.name ≠ none) (hm : ∀ d ∈ ds, d.mac.length = S) (hs : s.name = none) :
    hash_input S (ds ++ s :: rest) = .val (ds.flatMap Device.mac) ∧
    (ds.flatMap Device.mac).length = S * ds.length := by
  constructor
  · unfold hash_input
    rw [hash_loop_named S s rest hs ds [] hn, List.nil_append,
      flatMap_congr_mem (mac_bytes S) Device.mac ds (fun d hd => mac_bytes_eq S d (hm d hd))]
  · exact flatMap_length_const Device.mac S ds hm

/-- C4: for every finalized registry `D1..Dn` followed by the sentinel (and by
anything after it), with the 6-byte `mac` array, the bytes fed to the hash
between `cli_md5_init` and `cli_md5_final` are the concatenation, in registry
order, of the `mac` arrays of `D1..Dn`; their total length is `6 * n`, and
`cli_md5_update` is called `n` times. -/
theorem C4_hash_input_concat (ds rest : List Device) (s : Device)
    (hn : ∀ d ∈ ds, d.name ≠ none) (hm : ∀ d ∈ ds, d.mac.length = MAC_SIZE)
    (hs : s.name = none) :
    hash_input MAC_SIZE (ds ++ s :: rest) = .val (ds.flatMap Device.mac) ∧
    (ds.flatMap Device.mac).length = 6 * ds.length ∧
    update_calls (ds ++ s :: rest) = ds.length :=
  ⟨(hash_input_concat MAC_SIZE ds rest s hn hm hs).1,
    (hash_input_concat MAC_SIZE ds rest s hn hm hs).2,
    update_calls_named s rest hs ds hn⟩

/-- C4 at a registry of two devices, the sentinel, and a stale entry after it. -/
theorem C4_hash_input_concat_witness :
    hash_input MAC_SIZE
        ([⟨some "lo", [48, 48, 58, 48, 0, 0]⟩, ⟨some "eth0", [97, 98, 58, 99, 0, 0]⟩] ++
          sentinel MAC_SIZE :: [⟨some "stale", [1, 2, 3, 4, 5, 6]⟩])
      = .val [48, 48, 58, 48, 0, 0, 97, 98, 58, 99, 0, 0] ∧
    ([48, 48, 58, 48, 0, 0, 97, 98, 58, 99, 0, 0] : List Nat).length = 6 * 2 :=
  ⟨(C4_hash_input_concat
      [⟨some "lo", [48, 48, 58, 48, 0, 0]⟩, ⟨some "eth0", [97, 98, 58, 99, 0, 0]⟩]
      [⟨some "stale", [1, 2, 3, 4, 5, 6]⟩] (sentinel MAC_SIZE)
      (by decide) (by decide) rfl).1, by decide⟩

/-! ## `get_devices` without link-layer records -/

theorem walk_no_link (P : Platform) (S : Nat) (env : Env) :
    ∀ (recs : List IfAddr) (i : Nat) (devices : Option (List Device)),
      (∀ r ∈ recs, is_link P r = false) → walk P S env i recs devices = .val devices := by
  intro recs
  induction recs with
  | nil => intro i devices _; rfl
  | cons r rs ih =>
    intro i devices h
    have hr := h r (List.mem_cons_self _ _)
    have hrs := ih (i + 1) devices (fun x hx => h x (List.mem_cons_of_mem _ hx))
    unfold walk
    cases ha : r.ifa_addr with
    | none => simpa using hrs
    | some sa =>
      cases hf : P.link_family with
      | none => rfl
      | some fam =>
        have hne : sa.sa_family ≠ fam := by
          simpa [is_link, ha, hf] using hr
        simp [hne, hrs]

/-- An enumeration without link-layer records, the sentinel growth succeeding:
`get_devices` returns the registry made of the sentinel alone. -/
theorem get_devices_no_link (P : Platform) (S : Nat) (env : Env) (recs : List IfAddr)
    (hP : P.have_getifaddrs = true) (hrecs : env.getifaddrs = some recs)
    (hnone : ∀ r ∈ recs, is_link P r = false) (hfin : env.final_grow = true) :
    get_devices P S env = .val [sentinel S] := by
  unfold get_devices get_devices_ifaddrs
  rw [if_pos hP]
  simp only [hrecs, walk_no_link P S env recs 0 none hnone]
  cases P.siocgifhwaddr <;> simp [entries, fill_from_ioctl, finalize, hfin]

/-- C5: when `getifaddrs` succeeds but no record is a link-layer one, and the
allocations succeed, `get_devices` returns the (non-NULL) registry made of the
sentinel alone, and `internal_get_host_id` succeeds: it calls `cli_md5_update`
zero times, feeds the hash the empty byte string, and returns the 32 hex
characters of `H("")` followed by the terminator. -/
theorem C5_zero_devices (H : List Nat → List Nat) (P : Platform) (S : Nat) (env : Env)
    (recs : List IfAddr)
    (hP : P.have_getifaddrs = true) (hrecs : env.getifaddrs = some recs)
    (hnone : ∀ r ∈ recs, is_link P r = false)
    (hfin : env.final_grow = true) (hout : env.out_alloc = true) :
    get_devices P S env = .val [sentinel S] ∧
    update_calls [sentinel S] = 0 ∧
    hash_input S [sentinel S] = .val [] ∧
    internal_get_host_id H P S env = .val (hex_string (H []) ++ [0]) ∧
    text (hex_string (H []) ++ [0]) = hex_string (H []) ∧
    (hex_string (H [])).length = 32 := by
  have hg := get_devices_no_link P S env recs hP hrecs hnone hfin
  refine ⟨hg, rfl, rfl, ?_, ?_, hex_string_length _⟩
  · unfold internal_get_host_id
    rw [hg]
    simp only [hout, if_true]
    rw [show hash_input S [sentinel S] = .val [] from rfl]
    simp only [render_digest_eq]
  · unfold text
    rw [List.takeWhile_append_of_pos (by simpa using hex_string_ne_zero (H []))]
    simp

/-- C5 on Linux with a loopback record that has no address and an IPv4 record. -/
theorem C5_zero_devices_witness :
    get_devices linux MAC_SIZE
        (env_ok [⟨"lo", none⟩, ⟨"eth0", some ⟨2, []⟩⟩] (fun _ => [])) = .val [sentinel MAC_SIZE] ∧
    internal_get_host_id sample_hash linux MAC_SIZE
        (env_ok [⟨"lo", none⟩, ⟨"eth0", some ⟨2, []⟩⟩] (fun _ => []))
      = .val (hex_string (sample_hash []) ++ [0]) :=
  ⟨(C5_zero_devices sample_hash linux MAC_SIZE
      (env_ok [⟨"lo", none⟩, ⟨"eth0", some ⟨2, []⟩⟩] (fun _ => []))
      [⟨"lo", none⟩, ⟨"eth0", some ⟨2, []⟩⟩] rfl rfl (by decide) rfl rfl).1,
   (C5_zero_devices sample_hash linux MAC_SIZE
      (env_ok [⟨"lo", none⟩, ⟨"eth0", some ⟨2, []⟩⟩] (fun _ => []))
      [⟨"lo", none⟩, ⟨"eth0", some ⟨2, []⟩⟩] rfl rfl (by decide) rfl rfl).2.2.2.1⟩

/-- C6: whenever `internal_get_host_id` succeeds, the registry came from
`get_devices`, and the 33-byte buffer returned holds the hex rendering of the
digest `H(fed)` of the bytes fed to the hash: 32 characters, each in `0-9` or
`a-f`, characters `2i` and `2i+1` being the high and the low nibble of digest
byte `i` for every `i < 16`, and a zero byte at index 32. -/
theorem C6_output_is_hex_of_digest (H : List Nat → List Nat) (P : Platform) (S : Nat)
    (env : Env) (out : List Nat)
    (h : internal_get_host_id H P S env = .val out) :
    ∃ devices fed, get_devices P S env = .val devices ∧ hash_input S devices = .val fed ∧
      out = hex_string (H fed) ++ [0] ∧
      out.length = 33 ∧ out.getD 32 0 = 0 ∧
      text out = hex_string (H fed) ∧ (text out).length = 32 ∧
      (∀ c ∈ text out, is_lower_hex c) ∧
      ∀ i, i < 16 →
        out.getD (2 * i) 0 = hex_digit (digest_byte (H fed) i / 16) ∧
        out.getD (2 * i + 1) 0 = hex_digit (digest_byte (H fed) i % 16) := by
  unfold internal_get_host_id at h
  cases hg : get_devices P S env with
  | fault => simp [hg] at h
  | ret_null => simp [hg] at h
  | val devices =>
    simp only [hg] at h
    cases ho : env.out_alloc with
    | false => simp [ho] at h
    | true =>
      simp only [ho, if_true] at h
      cases hi : hash_input S devices with
      | fault => simp [hi] at h
      | ret_null => simp [hi] at h
      | val fed =>
        simp only [hi, Run.val.injEq, render_digest_eq] at h
        subst h
        have ht : text (hex_string (H fed) ++ [0]) = hex_string (H fed) := by
          unfold text
          rw [List.takeWhile_append_of_pos (by simpa using hex_string_ne_zero (H fed))]
          simp
        refine ⟨devices, fed, rfl, hi, rfl, ?_, ?_, ht, ?_, ?_, ?_⟩
        · simp [hex_string_length]
        · have := hex_string_length (H fed)
          rw [List.getD_eq_getElem?_getD, List.getElem?_append_right (by omega)]
          simp [this]
        · rw [ht]; exact hex_string_length _
        · rw [ht]; exact hex_string_lower _
        · intro i hi16
          exact hex_string_getD (H fed) i hi16

/-- C6 on Linux with one device whose address is AB CD 01 02 03 04. -/
theorem C6_output_is_hex_of_digest_witness :
    internal_get_host_id sample_hash linux MAC_SIZE
        (env_ok [⟨"eth0", some ⟨17, []⟩⟩] (fun _ => [0xAB, 0xCD, 0x01, 0x02, 0x03, 0x04]))
      = .val (ascii "61623a63000000000000000000000000" ++ [0]) ∧
    (ascii "61623a63000000000000000000000000" ++ [0]).length = 33 ∧
    (ascii "61623a63000000000000000000000000" ++ [0]).getD 32 0 = 0 ∧
    (text (ascii "61623a63000000000000000000000000" ++ [0])).length = 32 :=
  ⟨by decide,
    Exists.elim
      (C6_output_is_hex_of_digest sample_hash linux MAC_SIZE
        (env_ok [⟨"eth0", some ⟨17, []⟩⟩] (fun _ => [0xAB, 0xCD, 0x01, 0x02, 0x03, 0x04]))
        (ascii "61623a63000000000000000000000000" ++ [0]) (by decide))
      (fun _ hd => Exists.elim hd
        (fun _ hf => ⟨hf.2.2.2.1, hf.2.2.2.2.1, hf.2.2.2.2.2.2.1⟩))⟩

/-- C7 (as amended): on a platform without `getifaddrs`, `get_devices` is the
stub that returns NULL, and `internal_get_host_id` returns NULL: no identifier
is produced, whatever the hash and the allocator. -/
theorem C7_stub_gives_no_identifier (H : List Nat → List Nat) (P : Platform) (S : Nat)
    (env : Env) (hP : P.have_getifaddrs = false) :
    get_devices P S env = .ret_null ∧ internal_get_host_id H P S env = .ret_null := by
  have hg : get_devices P S env = .ret_null := by simp [get_devices, hP]
  exact ⟨hg, by simp [internal_get_host_id, hg]⟩

/-- C7 at the stub platform with an allocator that never fails. -/
theorem C7_stub_gives_no_identifier_witness :
    no_getifaddrs.have_getifaddrs = false ∧
    get_devices no_getifaddrs MAC_SIZE (env_ok [] (fun _ => [])) = .ret_null ∧
    internal_get_host_id sample_hash no_getifaddrs MAC_SIZE (env_ok [] (fun _ => [])) =
      .ret_null :=
  ⟨rfl, C7_stub_gives_no_identifier sample_hash no_getifaddrs MAC_SIZE
    (env_ok [] (fun _ => [])) rfl⟩

/-- C7 fails as stated: with the stub `get_devices`, `internal_get_host_id`
returns NULL and not an identifier, even when every allocation succeeds. -/
theorem C7_counterexample :
    get_devices no_getifaddrs MAC_SIZE (env_ok [] (fun _ => [])) = .ret_null ∧
    ¬ ∃ out, internal_get_host_id sample_hash no_getifaddrs MAC_SIZE
        (env_ok [] (fun _ => [])) = .val out := by
  refine ⟨by decide, ?_⟩
  rintro ⟨out, h⟩
  have : internal_get_host_id sample_hash no_getifaddrs MAC_SIZE (env_ok [] (fun _ => [])) =
      .ret_null := by decide
  rw [this] at h
  cases h

/-! ## The walk of `get_devices` -/

theorem named_of_names (ds : List Device) (acc : List String)
    (h : ds.map Device.name = acc.map some) : ∀ e ∈ ds, e.name ≠ none := by
  intro e he hnone
  have : e.name ∈ acc.map some := h ▸ List.mem_map_of_mem _ he
  rw [hnone] at this
  simp at this

theorem mem_names_iff (ds : List Device) (acc : List String)
    (h : ds.map Device.name = acc.map some) (n : String) :
    some n ∈ ds.map Device.name ↔ n ∈ acc := by
  rw [h]
  constructor
  · intro hm
    obtain ⟨m, hm1, hm2⟩ := List.mem_map.1 hm
    exact Option.some.inj hm2 ▸ hm1
  · exact fun hm => List.mem_map_of_mem _ hm

theorem get_device_entry_entries_found (S : Nat) (a b : Bool) (devices : Option (List Device))
    (acc : List String) (n : String)
    (h : (entries devices).map Device.name = acc.map some) (hn : n ∈ acc) :
    get_device_entry S a b devices n = .val (entries devices) := by
  cases devices with
  | none =>
    simp only [entries, List.map_nil] at h
    cases acc with
    | nil => simp at hn
    | cons x xs => simp at h
  | some ds =>
    simp only [entries] at h ⊢
    have hin := (mem_names_iff ds acc h n).2 hn
    obtain ⟨d, hd, hdn⟩ := List.mem_map.1 hin
    obtain ⟨pre, post, rfl⟩ := List.append_of_mem hd
    exact get_device_entry_found S a b n pre d post
      (fun e he => named_of_names _ acc h e (List.mem_append_left _ he)) hdn

theorem get_device_entry_entries_new (S : Nat) (b : Bool) (devices : Option (List Device))
    (acc : List String) (n : String)
    (h : (entries devices).map Device.name = acc.map some) (hn : n ∉ acc) :
    get_device_entry S true b devices n = .val (entries devices ++ [⟨strdup b n, zeros S⟩]) ∧
    get_device_entry S false b devices n = .ret_null := by
  cases devices with
  | none => simp [get_device_entry, set_name_if_null, entries]
  | some ds =>
    simp only [entries] at h ⊢
    have hno : some n ∉ ds.map Device.name := fun hm => hn ((mem_names_iff ds acc h n).1 hm)
    exact ⟨get_device_entry_new S b n ds (named_of_names ds acc h) hno,
      get_device_entry_grow_fails S b n ds (named_of_names ds acc h) hno⟩

theorem fill_from_record_absorb (S : Nat) (n : String) (raw : List Nat) :
    ∀ (ds : List Device), (∀ e ∈ ds, e.name ≠ none) →
      (∀ d ∈ ds, ∀ r, append_mac S d.mac r = d.mac) →
      fill_from_record S n raw ds = .val ds := by
  intro ds
  induction ds with
  | nil => intro _ _; rfl
  | cons d ds ih =>
    intro hall habs
    have hd := hall d (List.mem_cons_self _ _)
    cases hn : d.name with
    | none => exact absurd hn hd
    | some m =>
      have hrec := ih (fun e he => hall e (List.mem_cons_of_mem _ he))
        (fun e he => habs e (List.mem_cons_of_mem _ he))
      by_cases hm : m = n
      · have hmac := habs d (List.mem_cons_self _ _) raw
        cases d with
        | mk dn dm =>
          simp only at hn hmac
          simp [fill_from_record, hn, hm, hmac]
      · simp [fill_from_record, hn, hm, hrec]

theorem fill_from_record_last (S : Nat) (n : String) (raw m : List Nat) :
    ∀ (ds : List Device), (∀ e ∈ ds, e.name ≠ none) → some n ∉ ds.map Device.name →
      fill_from_record S n raw (ds ++ [⟨some n, m⟩]) =
        .val (ds ++ [⟨some n, append_mac S m raw⟩]) ∧
      fill_from_record S n raw (ds ++ [⟨none, m⟩]) = .fault := by
  intro ds
  induction ds with
  | nil => intro _ _; simp [fill_from_record]
  | cons d ds ih =>
    intro hall hno
    have hd := hall d (List.mem_cons_self _ _)
    cases hn : d.name with
    | none => exact absurd hn hd
    | some k =>
      have hne : k ≠ n := by
        intro h
        apply hno
        simp [hn, h]
      have hrec := ih (fun e he => hall e (List.mem_cons_of_mem _ he))
        (fun h => hno (by simp only [List.map_cons, List.mem_cons]; exact Or.inr h))
      simp [fill_from_record, hn, hne, hrec.1, hrec.2]

theorem link_names_cons_link (P : Platform) (r : IfAddr) (rs : List IfAddr)
    (h : is_link P r = true) : link_names P (r :: rs) = r.ifa_name :: link_names P rs := by
  simp [link_names, List.filter_cons, h]

theorem link_names_cons_skip (P : Platform) (r : IfAddr) (rs : List IfAddr)
    (h : is_link P r = false) : link_names P (r :: rs) = link_names P rs := by
  simp [link_names, List.filter_cons, h]

theorem link_names_no_family (P : Platform) (h : P.link_family = none) :
    ∀ (recs : List IfAddr), link_names P recs = [] := by
  intro recs
  induction recs with
  | nil => rfl
  | cons r rs ih =>
    have : is_link P r = false := by
      unfold is_link
      rw [h]
      cases r.ifa_addr <;> rfl
    rw [link_names_cons_skip P r rs this, ih]

theorem walk_entry_cons_skip (P : Platform) (S : Nat) (r : IfAddr) (rs : List IfAddr)
    (m : String) (h : is_link P r = false ∨ r.ifa_name ≠ m) :
    walk_entry P S (r :: rs) m = walk_entry P S rs m := by
  unfold walk_entry walk_mac
  have : first_addr P (r :: rs) m = first_addr P rs m := by
    cases ha : r.ifa_addr with
    | none => simp only [first_addr, ha]
    | some sa =>
      have : ¬ (is_link P r = true ∧ r.ifa_name = m) := by
        rintro ⟨h1, h2⟩
        rcases h with h | h
        · rw [h] at h1; cases h1
        · exact h h2
      simp only [first_addr, ha, this, if_false]
  rw [this]

theorem walk_entry_cons_first (P : Platform) (S : Nat) (r : IfAddr) (rs : List IfAddr)
    (sa : SockAddr) (ha : r.ifa_addr = some sa) (h : is_link P r = true) :
    walk_entry P S (r :: rs) r.ifa_name =
      ⟨some r.ifa_name,
        if P.siocgifhwaddr then zeros S else append_mac S (zeros S) sa.lladdr⟩ := by
  unfold walk_entry walk_mac first_addr
  simp [ha, h]

theorem map_walk_entry_skip (P : Platform) (S : Nat) (r : IfAddr) (rs : List IfAddr) :
    ∀ (l : List String), (∀ m ∈ l, is_link P r = false ∨ r.ifa_name ≠ m) →
      l.map (walk_entry P S (r :: rs)) = l.map (walk_entry P S rs) := by
  intro l h
  apply List.map_congr_left
  intro m hm
  exact walk_entry_cons_skip P S r rs m (h m hm)

theorem walk_post_old (P : Platform) (S : Nat) (r : IfAddr) (rs : List IfAddr)
    (acc : List String) (base : List Device) (hl : is_link P r = true)
    (hn : r.ifa_name ∈ acc) :
    base ++ ((first_seen (link_names P (r :: rs))).filter (fun m => m ∉ acc)).map
        (walk_entry P S (r :: rs)) =
      base ++ ((first_seen (link_names P rs)).filter (fun m => m ∉ acc)).map
        (walk_entry P S rs) := by
  rw [link_names_cons_link P r rs hl, first_seen_filter_old acc _ _ hn,
    map_walk_entry_skip P S r rs]
  intro m hm
  right
  intro e
  have := (List.mem_filter.1 hm).2
  simp only [decide_eq_true_eq] at this
  exact this (e ▸ hn)

theorem walk_post_new (P : Platform) (S : Nat) (r : IfAddr) (rs : List IfAddr)
    (acc : List String) (base : List Device) (hl : is_link P r = true)
    (hn : r.ifa_name ∉ acc) :
    base ++ ((first_seen (link_names P (r :: rs))).filter (fun m => m ∉ acc)).map
        (walk_entry P S (r :: rs)) =
      (base ++ [walk_entry P S (r :: rs) r.ifa_name]) ++
        ((first_seen (link_names P rs)).filter (fun m => m ∉ acc ++ [r.ifa_name])).map
          (walk_entry P S rs) := by
  rw [link_names_cons_link P r rs hl, first_seen_filter_new acc _ _ hn, List.map_cons,
    map_walk_entry_skip P S r rs]
  · simp
  · intro m hm
    right
    intro e
    have := (List.mem_filter.1 hm).2
    simp only [decide_eq_true_eq, List.mem_append, List.mem_singleton, not_or] at this
    exact this.2 e.symm

theorem grow_requests_skip (P : Platform) (i : Nat) (r : IfAddr) (rs : List IfAddr)
    (acc : List String) (h : is_link P r = false) :
    grow_requests P i (r :: rs) acc = grow_requests P (i + 1) rs acc := by
  simp [grow_requests, h]

theorem grow_requests_old (P : Platform) (i : Nat) (r : IfAddr) (rs : List IfAddr)
    (acc : List String) (h : is_link P r = true) (hn : r.ifa_name ∈ acc) :
    grow_requests P i (r :: rs) acc = grow_requests P (i + 1) rs acc := by
  simp [grow_requests, h, hn]

theorem grow_requests_new (P : Platform) (i : Nat) (r : IfAddr) (rs : List IfAddr)
    (acc : List String) (h : is_link P r = true) (hn : r.ifa_name ∉ acc) :
    grow_requests P i (r :: rs) acc = i :: grow_requests P (i + 1) rs (acc ++ [r.ifa_name]) := by
  simp [grow_requests, h, hn]

theorem grow_requests_no_family (P : Platform) (h : P.link_family = none) :
    ∀ (recs : List IfAddr) (i : Nat) (acc : List String), grow_requests P i recs acc = [] := by
  intro recs
  induction recs with
  | nil => intro i acc; rfl
  | cons r rs ih =>
    intro i acc
    have : is_link P r = false := by
      unfold is_link
      rw [h]
      cases r.ifa_addr <;> rfl
    rw [grow_requests_skip P i r rs acc this, ih]

theorem walkPost_cons (P : Platform) (env : Env) (all : List Device) (reqs : List Nat) (i : Nat)
    (res : Run (Option (List Device))) (hi : env.grow i = true)
    (h : WalkPost P env all reqs res) : WalkPost P env all (i :: reqs) res := by
  cases res with
  | val r =>
    rcases h with h | h
    · refine Or.inl ⟨h.1, ?_⟩
      intro k hk
      rcases List.mem_cons.1 hk with rfl | hk
      · exact hi
      · exact h.2 k hk
    · exact Or.inr h
  | ret_null =>
    obtain ⟨k, hk, hg⟩ := h
    exact ⟨k, List.mem_cons_of_mem _ hk, hg⟩
  | fault => exact h

theorem find_entry_null_tail (n : String) (m : List Nat) :
    ∀ (named : List Device), (∀ e ∈ named, e.name ≠ none) →
      some n ∉ named.map Device.name → find_entry n (named ++ [⟨none, m⟩]) = .fault := by
  intro named
  induction named with
  | nil => intro _ _; simp [find_entry]
  | cons d ds ih =>
    intro hall hno
    have hd := hall d (List.mem_cons_self _ _)
    cases hn : d.name with
    | none => exact absurd hn hd
    | some k =>
      have hne : k ≠ n := by
        intro h
        apply hno
        simp [hn, h]
      have hrec := ih (fun e he => hall e (List.mem_cons_of_mem _ he))
        (fun h => hno (by simp only [List.map_cons, List.mem_cons]; exact Or.inr h))
      simp [find_entry, hn, hne, hrec]

/-- On the `ioctl` path, once the registry ends with a NULL name the walk
either faults or ends with the registry as it is. -/
theorem walk_null_tail (P : Platform) (S : Nat) (env : Env) (hs : P.siocgifhwaddr = true)
    (named : List Device) (m : List Nat) (hall : ∀ e ∈ named, e.name ≠ none) :
    ∀ (recs : List IfAddr) (i : Nat),
      walk P S env i recs (some (named ++ [⟨none, m⟩])) = .fault ∨
      walk P S env i recs (some (named ++ [⟨none, m⟩])) = .val (some (named ++ [⟨none, m⟩])) := by
  intro recs
  induction recs with
  | nil => intro i; exact Or.inr rfl
  | cons r rs ih =>
    intro i
    unfold walk
    cases ha : r.ifa_addr with
    | none => exact ih (i + 1)
    | some sa =>
      cases hf : P.link_family with
      | none => exact Or.inr rfl
      | some fam =>
        by_cases hfam : sa.sa_family = fam
        · simp only [hfam, ne_eq, not_true_eq_false, if_false]
          by_cases hin : some r.ifa_name ∈ named.map Device.name
          · obtain ⟨d, hd, hdn⟩ := List.mem_map.1 hin
            obtain ⟨pre, post, rfl⟩ := List.append_of_mem hd
            have hg := get_device_entry_found S (env.grow i) (env.dup i) r.ifa_name pre d
              (post ++ [⟨none, m⟩]) (fun e he => hall e (List.mem_append_left _ he)) hdn
            have e : pre ++ d :: post ++ [(⟨none, m⟩ : Device)] =
                pre ++ d :: (post ++ [⟨none, m⟩]) := by simp
            rw [e, hg]
            simp only [hs, if_true]
            rw [← e]
            exact ih (i + 1)
          · left
            simp [get_device_entry, find_entry_null_tail r.ifa_name m named hall hin]
        · simp only [ne_eq, hfam, not_false_eq_true, if_true]
          exact ih (i + 1)

/-- The walk of `get_devices` from any registry of named entries: it ends with
the entries it started from followed by one entry per link-layer name not yet
stored, in first-seen order, each with the `mac` of `walk_entry`; or it returns
NULL after a failed growth; or it faults after a failed name copy. -/
theorem walk_spec (P : Platform) (S : Nat) (env : Env)
    (habs : P.siocgifhwaddr = false → ∀ raw r,
      append_mac S (append_mac S (zeros S) raw) r = append_mac S (zeros S) raw) :
    ∀ (recs : List IfAddr) (i : Nat) (devices : Option (List Device)) (acc : List String),
      (entries devices).map Device.name = acc.map some →
      (P.siocgifhwaddr = false → ∀ d ∈ entries devices, ∀ r, append_mac S d.mac r = d.mac) →
      WalkPost P env
        (entries devices ++
          ((first_seen (link_names P recs)).filter (fun m => m ∉ acc)).map (walk_entry P S recs))
        (grow_requests P i recs acc)
        (walk P S env i recs devices) := by
  intro recs
  induction recs with
  | nil =>
    intro i devices acc _ _
    simp [walk, WalkPost, link_names, first_seen, grow_requests]
  | cons r rs ih =>
    intro i devices acc hacc hfull
    have skip : is_link P r = false →
        WalkPost P env
          (entries devices ++
            ((first_seen (link_names P (r :: rs))).filter (fun m => m ∉ acc)).map
              (walk_entry P S (r :: rs)))
          (grow_requests P i (r :: rs) acc)
          (walk P S env (i + 1) rs devices) := by
      intro hl
      rw [link_names_cons_skip P r rs hl, map_walk_entry_skip P S r rs _ (fun m _ => Or.inl hl),
        grow_requests_skip P i r rs acc hl]
      exact ih (i + 1) devices acc hacc hfull
    unfold walk
    cases ha : r.ifa_addr with
    | none =>
      have hl : is_link P r = false := by simp [is_link, ha]
      simpa using skip hl
    | some sa =>
      cases hf : P.link_family with
      | none =>
        rw [link_names_no_family P hf, grow_requests_no_family P hf]
        simp [WalkPost, first_seen]
      | some fam =>
        by_cases hfam : sa.sa_family = fam
        · have hl : is_link P r = true := by simp [is_link, ha, hf, hfam]
          simp only [hfam, ne_eq, not_true_eq_false, if_false]
          by_cases hn : r.ifa_name ∈ acc
          · rw [get_device_entry_entries_found S _ _ devices acc _ hacc hn,
              walk_post_old P S r rs acc _ hl hn, grow_requests_old P i r rs acc hl hn]
            cases hs : P.siocgifhwaddr with
            | true =>
              simp only [if_true]
              exact ih (i + 1) (some (entries devices)) acc hacc (fun h => by simp [hs] at h)
            | false =>
              have hall := named_of_names _ acc hacc
              simp only [Bool.false_eq_true, if_false,
                fill_from_record_absorb S r.ifa_name sa.lladdr (entries devices) hall (hfull hs)]
              exact ih (i + 1) (some (entries devices)) acc hacc (fun _ => hfull hs)
          · obtain ⟨hg1, hg0⟩ :=
              get_device_entry_entries_new S (env.dup i) devices acc r.ifa_name hacc hn
            rw [grow_requests_new P i r rs acc hl hn]
            cases hgr : env.grow i with
            | false =>
              rw [hg0]
              exact ⟨i, List.mem_cons_self _ _, hgr⟩
            | true =>
              rw [hg1]
              have hall := named_of_names _ acc hacc
              have hno : some r.ifa_name ∉ (entries devices).map Device.name :=
                fun hm => hn ((mem_names_iff _ acc hacc _).1 hm)
              have hlast := fill_from_record_last S r.ifa_name sa.lladdr (zeros S)
                (entries devices) hall hno
              cases hd : env.dup i with
              | false =>
                cases hs : P.siocgifhwaddr with
                | true =>
                  simp only [strdup, Bool.false_eq_true, if_false, if_true]
                  rcases walk_null_tail P S env hs (entries devices) (zeros S) hall rs (i + 1)
                    with hw | hw
                  · rw [hw]
                    exact ⟨i, hd⟩
                  · rw [hw]
                    exact Or.inr ⟨hs, ⟨i, hd⟩, entries devices, zeros S, rfl, hall⟩
                | false =>
                  simp only [strdup, Bool.false_eq_true, if_false, hlast.2]
                  exact ⟨i, hd⟩
              | true =>
                rw [walk_post_new P S r rs acc _ hl hn, walk_entry_cons_first P S r rs sa ha hl]
                have hacc2 : ∀ m : List Nat,
                    (entries (some (entries devices ++ [⟨some r.ifa_name, m⟩]))).map Device.name
                      = (acc ++ [r.ifa_name]).map some := by
                  intro m
                  show (entries devices ++ [_]).map Device.name = _
                  rw [List.map_append, hacc]
                  simp
                apply walkPost_cons P env _ _ i _ hgr
                cases hs : P.siocgifhwaddr with
                | true =>
                  simp only [strdup, if_true]
                  exact ih (i + 1) _ (acc ++ [r.ifa_name]) (hacc2 _)
                    (fun h => by simp [hs] at h)
                | false =>
                  simp only [strdup, if_true, Bool.false_eq_true, if_false, hlast.1]
                  refine ih (i + 1) _ (acc ++ [r.ifa_name]) (hacc2 _) ?_
                  intro _ d hd2 raw
                  have hd3 : d ∈ entries devices ++
                      [⟨some r.ifa_name, append_mac S (zeros S) sa.lladdr⟩] := hd2
                  rcases List.mem_append.1 hd3 with hd4 | hd4
                  · exact hfull hs d hd4 raw
                  · have e := List.mem_singleton.1 hd4
                    subst e
                    dsimp only
                    exact habs hs sa.lladdr raw
        · have hl : is_link P r = false := by
            unfold is_link
            rw [ha, hf]
            exact decide_eq_false hfam
          simp only [ne_eq, hfam, not_false_eq_true, if_true]
          exact skip hl

/-! ## The `ioctl` loop and the whole of `get_devices` -/

theorem fill_from_ioctl_fresh (S : Nat) (env : Env) :
    ∀ (ns : List String) (j : Nat),
      fill_from_ioctl S env j (ns.map (fresh S)) =
        if ioctls_ok env j ns = true then
          .val ((ns.enumFrom j).map
            (fun p => ⟨some p.2, append_mac S (zeros S) ((env.ioctl p.1).getD [])⟩))
        else .ret_null := by
  intro ns
  induction ns with
  | nil => intro j; simp [fill_from_ioctl, ioctls_ok]
  | cons n ns ih =>
    intro j
    have hrec := ih (j + 1)
    have hcons : ioctls_ok env j (n :: ns) =
        (env.socket j && (env.ioctl j).isSome && ioctls_ok env (j + 1) ns) := by
      simp [ioctls_ok, List.enumFrom_cons, List.all_cons]
    rw [hcons, List.map_cons]
    unfold fill_from_ioctl
    rw [show (fresh S n).name = some n from rfl]
    cases hsock : env.socket j with
    | false => simp
    | true =>
      cases hio : env.ioctl j with
      | none => simp
      | some raw =>
        rw [hrec]
        cases htl : ioctls_ok env (j + 1) ns with
        | false => simp
        | true => simp [fresh, List.enumFrom_cons, hio]

theorem walk_entry_ioctl (P : Platform) (S : Nat) (recs : List IfAddr)
    (hs : P.siocgifhwaddr = true) : walk_entry P S recs = fresh S := by
  funext n
  simp [walk_entry, walk_mac, fresh, hs]

theorem fill_from_ioctl_null_tail (S : Nat) (env : Env) (m : List Nat) :
    ∀ (named : List Device) (j : Nat), (∀ e ∈ named, e.name ≠ none) →
      fill_from_ioctl S env j (named ++ [⟨none, m⟩]) = .ret_null ∨
      fill_from_ioctl S env j (named ++ [⟨none, m⟩]) = .fault := by
  intro named
  induction named with
  | nil => intro j _; right; simp [fill_from_ioctl]
  | cons d ds ih =>
    intro j hall
    have hd := hall d (List.mem_cons_self _ _)
    have hrec := ih (j + 1) (fun e he => hall e (List.mem_cons_of_mem _ he))
    cases hn : d.name with
    | none => exact absurd hn hd
    | some k =>
      simp only [List.cons_append, fill_from_ioctl, hn]
      cases env.socket j with
      | false => left; simp
      | true =>
        cases env.ioctl j with
        | none => left; simp
        | some raw => rcases hrec with h | h <;> simp [h]

/-- The whole of `get_devices` under `HAVE_GETIFADDRS`, when `sizeof(mac)` is
at most 20 on the record path. -/
theorem get_devices_spec (P : Platform) (S : Nat) (env : Env) (recs : List IfAddr)
    (hP : P.have_getifaddrs = true) (hrecs : env.getifaddrs = some recs)
    (hS : P.siocgifhwaddr = false → 1 ≤ S ∧ S ≤ 20) :
    DevicesPost P S env recs (get_devices P S env) := by
  have hw := walk_spec P S env
    (fun hs raw r => append_mac_absorb S (hS hs).1 (hS hs).2 raw r) recs 0 none [] rfl
    (fun _ d hd => by simp [entries] at hd)
  have hfilter : (first_seen (link_names P recs)).filter (fun m => m ∉ ([] : List String)) =
      first_seen (link_names P recs) := by simp
  rw [hfilter] at hw
  simp only [entries, List.nil_append] at hw
  unfold get_devices get_devices_ifaddrs
  rw [if_pos hP]
  simp only [hrecs]
  cases hwalk : walk P S env 0 recs none with
  | fault =>
    rw [hwalk] at hw
    exact hw
  | ret_null =>
    rw [hwalk] at hw
    exact Or.inl hw
  | val r =>
    rw [hwalk] at hw
    rcases hw with hw | ⟨hs, hk, named, m, hent, hall⟩
    · have hent : entries r = (first_seen (link_names P recs)).map (walk_entry P S recs) := hw.1
      have hgrow : ∀ k ∈ grow_requests P 0 recs [], env.grow k = true := hw.2
      simp only [hent]
      cases hs : P.siocgifhwaddr with
      | true =>
        simp only [if_true]
        rw [walk_entry_ioctl P S recs hs, fill_from_ioctl_fresh S env _ 0]
        cases hio : ioctls_ok env 0 (first_seen (link_names P recs)) with
        | false =>
          simp only [Bool.false_eq_true, if_false]
          exact Or.inr (Or.inr (Or.inl ⟨hs, hio⟩))
        | true =>
          simp only [if_true, finalize]
          cases hfin : env.final_grow with
          | false => exact Or.inr (Or.inl hfin)
          | true =>
            simp only [if_true]
            exact ⟨by simp [expected_entries, hs], hgrow, hfin, fun _ => hio⟩
      | false =>
        simp only [Bool.false_eq_true, if_false, finalize]
        cases hfin : env.final_grow with
        | false => exact Or.inr (Or.inl hfin)
        | true =>
          simp only [if_true]
          refine ⟨?_, hgrow, hfin, fun h => by simp [hs] at h⟩
          simp [expected_entries, hs, walk_entry, walk_mac]
    · have hent2 : entries r = named ++ [⟨none, m⟩] := hent
      simp only [hs, if_true, hent2]
      rcases fill_from_ioctl_null_tail S env m named 0 hall with h | h
      · rw [h]
        exact Or.inr (Or.inr (Or.inr ⟨hs, hk⟩))
      · rw [h]
        exact hk

theorem expected_entries_names (P : Platform) (S : Nat) (env : Env) (recs : List IfAddr) :
    (expected_entries P S env recs).map Device.name =
      (first_seen (link_names P recs)).map some := by
  unfold expected_entries
  cases P.siocgifhwaddr with
  | true =>
    simp only [if_true, List.map_map]
    rw [show (Device.name ∘ fun p : Nat × String =>
        (⟨some p.2, append_mac S (zeros S) ((env.ioctl p.1).getD [])⟩ : Device)) =
        some ∘ Prod.snd from rfl, ← List.map_map, List.enumFrom_map_snd]
  | false =>
    simp only [Bool.false_eq_true, if_false, List.map_map]
    rfl

/-- When no name copy fails, `get_devices` returns NULL exactly when a growth
requested during the walk fails, the growth for the sentinel fails, or (on the
`ioctl` path) a `socket` or `ioctl` fails for a collected device. -/
theorem get_devices_null_iff (P : Platform) (S : Nat) (env : Env) (recs : List IfAddr)
    (hP : P.have_getifaddrs = true) (hrecs : env.getifaddrs = some recs)
    (hdup : ∀ i, env.dup i = true)
    (hS : P.siocgifhwaddr = false → 1 ≤ S ∧ S ≤ 20) :
    get_devices P S env = .ret_null ↔
      ((∃ k ∈ grow_requests P 0 recs [], env.grow k = false) ∨ env.final_grow = false ∨
        (P.siocgifhwaddr = true ∧ ioctls_ok env 0 (first_seen (link_names P recs)) = false)) := by
  have h := get_devices_spec P S env recs hP hrecs hS
  constructor
  · intro hr
    rw [hr] at h
    rcases h with h | h | h | ⟨_, k, hk⟩
    · exact Or.inl h
    · exact Or.inr (Or.inl h)
    · exact Or.inr (Or.inr h)
    · rw [hdup k] at hk
      cases hk
  · intro hfail
    cases hg : get_devices P S env with
    | ret_null => rfl
    | fault =>
      rw [hg] at h
      obtain ⟨k, hk⟩ := h
      rw [hdup k] at hk
      cases hk
    | val reg =>
      rw [hg] at h
      obtain ⟨_, hgrow, hfin, hio⟩ := h
      rcases hfail with ⟨k, hk, hk2⟩ | hf | ⟨hs, hf⟩
      · rw [hgrow k hk] at hk2
        cases hk2
      · rw [hfin] at hf
        cases hf
      · rw [hio hs] at hf
        cases hf

/-- When no name copy fails, `get_devices` returns either NULL or a finalized
registry: one named entry per distinct link-layer interface name, in
first-seen order, followed by the sentinel (NULL name, zeroed `mac`). -/
theorem get_devices_null_or_finalized (P : Platform) (S : Nat) (env : Env)
    (recs : List IfAddr)
    (hP : P.have_getifaddrs = true) (hrecs : env.getifaddrs = some recs)
    (hdup : ∀ i, env.dup i = true)
    (hS : P.siocgifhwaddr = false → 1 ≤ S ∧ S ≤ 20) :
    get_devices P S env = .ret_null ∨
      (get_devices P S env = .val (expected_entries P S env recs ++ [sentinel S]) ∧
        (expected_entries P S env recs).map Device.name =
          (first_seen (link_names P recs)).map some ∧
        (sentinel S).name = none ∧ (sentinel S).mac = zeros S) := by
  have h := get_devices_spec P S env recs hP hrecs hS
  cases hg : get_devices P S env with
  | ret_null => exact Or.inl rfl
  | fault =>
    rw [hg] at h
    obtain ⟨k, hk⟩ := h
    rw [hdup k] at hk
    cases hk
  | val reg =>
    rw [hg] at h
    right
    exact ⟨by rw [h.1], expected_entries_names P S env recs, rfl, rfl⟩

/-- A failed `getifaddrs` makes `get_devices` return NULL. -/
theorem get_devices_enumeration_fails (P : Platform) (S : Nat) (env : Env)
    (h : env.getifaddrs = none) : get_devices P S env = .ret_null := by
  unfold get_devices get_devices_ifaddrs
  simp [h]

/-- C8 fails on the code when a name copy fails: with one link-layer record
and `strdup` returning NULL, `get_devices` neither returns NULL nor a finalized
registry; it hands the NULL name to `strcpy` (with `SIOCGIFHWADDR`) or to
`strcmp` (without it). -/
theorem C8_strdup_failure_faults :
    get_devices linux MAC_SIZE (env_dup_fails [⟨"eth0", some ⟨17, [1, 2, 3, 4, 5, 6]⟩⟩]) =
      .fault ∧
    get_devices bsd MAC_SIZE (env_dup_fails [⟨"en0", some ⟨18, [1, 2, 3, 4, 5, 6]⟩⟩]) =
      .fault := by
  constructor <;> decide

/-- When the name copy succeeds, every registry `get_device_entry` returns from
a registry of named entries is non-empty, has only named entries, and stores
the upserted name. -/
theorem get_device_entry_named (S : Nat) (a : Bool) (devices : Option (List Device))
    (acc : List String) (n : String) (ds1 : List Device)
    (hacc : (entries devices).map Device.name = acc.map some)
    (h : get_device_entry S a true devices n = .val ds1) :
    1 ≤ ds1.length ∧ (∀ e ∈ ds1, e.name ≠ none) ∧ some n ∈ ds1.map Device.name := by
  by_cases hn : n ∈ acc
  · rw [get_device_entry_entries_found S a true devices acc n hacc hn] at h
    cases h
    have hin := (mem_names_iff _ acc hacc n).2 hn
    refine ⟨?_, named_of_names _ acc hacc, hin⟩
    obtain ⟨d, hd, _⟩ := List.mem_map.1 hin
    exact List.length_pos_of_mem hd
  · obtain ⟨h1, h0⟩ := get_device_entry_entries_new S true devices acc n hacc hn
    cases a with
    | false => rw [h0] at h; cases h
    | true =>
      rw [h1] at h
      cases h
      refine ⟨by simp, ?_, by simp [strdup]⟩
      intro e he
      rcases List.mem_append.1 he with he | he
      · exact named_of_names _ acc hacc e he
      · rw [List.mem_singleton.1 he]
        simp [strdup]

/-- C9 fails on the code when the name copy fails: with `calloc`/`realloc`
succeeding and `strdup` returning NULL, `get_device_entry` returns a registry
whose new entry has a NULL name, both on the first call and on growth; the
failures of `calloc` and `realloc` do return NULL. -/
theorem C9_strdup_failure_returns_nameless_entry :
    get_device_entry MAC_SIZE true false none "eth0" = .val [⟨none, zeros MAC_SIZE⟩] ∧
    get_device_entry MAC_SIZE true false (some [fresh MAC_SIZE "lo"]) "eth0" =
      .val [fresh MAC_SIZE "lo", ⟨none, zeros MAC_SIZE⟩] ∧
    get_device_entry MAC_SIZE false true none "eth0" = .ret_null ∧
    get_device_entry MAC_SIZE false true (some [fresh MAC_SIZE "lo"]) "eth0" = .ret_null := by
  refine ⟨by decide, by decide, by decide, by decide⟩

/-! ## The `mac` text during one pass -/

/-- With a 25-byte `mac` a second record of the same name does append: the
text after two records is longer than after the first. -/
theorem second_record_appends_at_25 :
    text (append_mac 25 (append_mac 25 (zeros 25) [1, 2, 3, 4, 5, 6]) [7, 8, 9, 10, 11, 12]) =
      ascii "01:02:03:04:05:06:07:08" := by
  decide

theorem write_at_length (buf : List Nat) (off : Nat) (data : List Nat) :
    (write_at buf off data).length = buf.length := by
  simp only [write_at, List.length_append, List.length_take, List.length_drop]
  omega

theorem mac_step_length (S : Nat) (buf : List Nat) (b : Nat) :
    (mac_step S buf b).length = buf.length := by
  unfold mac_step snprintf_at
  split
  · rfl
  · exact write_at_length _ _ _

theorem append_mac_length (S : Nat) (raw : List Nat) :
    ∀ (buf : List Nat), (append_mac S buf raw).length = buf.length := by
  intro buf
  rw [append_mac_eq_foldl]
  generalize (List.range 6).map (fun i => raw.getD i 0) = bs
  induction bs generalizing buf with
  | nil => rfl
  | cons b bs ih => rw [List.foldl_cons, ih, mac_step_length]

/-- Every `mac` array of the expected registry has `S` bytes. -/
theorem expected_entries_mac_length (P : Platform) (S : Nat) (env : Env) (recs : List IfAddr) :
    ∀ d ∈ expected_entries P S env recs, d.mac.length = S := by
  intro d hd
  unfold expected_entries at hd
  cases hs : P.siocgifhwaddr with
  | true =>
    simp only [hs, if_true] at hd
    obtain ⟨p, _, rfl⟩ := List.mem_map.1 hd
    simp [append_mac_length, zeros]
  | false =>
    simp only [hs, Bool.false_eq_true, if_false] at hd
    obtain ⟨n, _, rfl⟩ := List.mem_map.1 hd
    simp [append_mac_length, zeros]

/-- End to end: when `get_devices` returns a registry and the output buffer is
allocated, the identifier is the hex rendering of the hash of the concatenated
`mac` arrays of the expected entries, in first-seen order of the names. -/
theorem internal_get_host_id_spec (H : List Nat → List Nat) (P : Platform) (S : Nat)
    (env : Env) (recs : List IfAddr) (reg : List Device)
    (hP : P.have_getifaddrs = true) (hrecs : env.getifaddrs = some recs)
    (hS : P.siocgifhwaddr = false → 1 ≤ S ∧ S ≤ 20)
    (hrun : get_devices P S env = .val reg) (hout : env.out_alloc = true) :
    internal_get_host_id H P S env =
      .val (hex_string (H ((expected_entries P S env recs).flatMap Device.mac)) ++ [0]) := by
  have h := get_devices_spec P S env recs hP hrecs hS
  rw [hrun] at h
  have hnamed : ∀ d ∈ expected_entries P S env recs, d.name ≠ none :=
    named_of_names _ _ (expected_entries_names P S env recs)
  have hin := (hash_input_concat S (expected_entries P S env recs) [] (sentinel S) hnamed
    (expected_entries_mac_length P S env recs) rfl).1
  unfold internal_get_host_id
  rw [hrun]
  simp only [hout, if_true, h.1, hin, render_digest_eq]

end HostId
